import Mathlib

/-!
Shallow embedding of the RAG subsystem of the hr-agent backend
(`backend/app/rag/...`): the chunking service, the embedding service,
the retrieval service and the ingestion pipeline, together with proofs
of the specified properties.

Python strings are modelled as `List Char`; character positions and
Python `int` values as `Int`; fallible calls as `Except Unit`.
-/

namespace HrAgent

/-- A Python string, modelled as a list of characters. -/
abbrev Str := List Char

/-- Shorthand to turn a Lean string literal into a `Str`. -/
def str (s : String) : Str := s.data

/-- Python whitespace for `str.strip()` / `\s`: space, tab, newline,
carriage return, vertical tab, form feed. -/
def isPyWs (c : Char) : Bool :=
  c = ' ' || c = '\t' || c = '\n' || c = '\r' || c = '\x0b' || c = '\x0c'

/-- Python `s.lstrip()`. -/
def lstrip (s : Str) : Str := s.dropWhile isPyWs

/-- Python `s.rstrip()`. -/
def rstrip (s : Str) : Str := (s.reverse.dropWhile isPyWs).reverse

/-- Python `s.strip()`. -/
def pyStrip (s : Str) : Str := rstrip (lstrip s)

/-- Python `s[-k:]` for `k ≥ 1`: the trailing `k` characters
(the whole string when it is shorter than `k`). -/
def takeRight (k : Nat) (s : Str) : Str := s.drop (s.length - k)

/-- Python `sep.join(parts)`. -/
def pyJoin (sep : Str) : List Str → Str
  | [] => []
  | [x] => x
  | x :: y :: rest => x ++ sep ++ pyJoin sep (y :: rest)

/-- Python `text.split('\n')`. -/
def splitLines : Str → List Str
  | [] => [[]]
  | '\n' :: rest => [] :: splitLines rest
  | c :: rest =>
    match splitLines rest with
    | [] => [[c]]
    | s :: ss => (c :: s) :: ss

/-- Python `text.split('\n\n')`: split on non-overlapping occurrences of a
blank line separator, scanning left to right. -/
def splitPara : Str → List Str
  | [] => [[]]
  | '\n' :: '\n' :: rest => [] :: splitPara rest
  | c :: rest =>
    match splitPara rest with
    | [] => [[c]]
    | s :: ss => (c :: s) :: ss

/-- The decimal digit characters used by Python `str(n)`. -/
def digitChar (d : Nat) : Char :=
  match d with
  | 0 => '0' | 1 => '1' | 2 => '2' | 3 => '3' | 4 => '4'
  | 5 => '5' | 6 => '6' | 7 => '7' | 8 => '8' | _ => '9'

/-- Base-10 digits of `n`, least significant first; the first argument is
structural fuel (any bound on the number of digits, e.g. `n` itself). -/
def natDigitsAux : Nat → Nat → List Nat
  | _, 0 => []
  | 0, _ + 1 => []
  | fuel + 1, n + 1 => (n + 1) % 10 :: natDigitsAux fuel ((n + 1) / 10)

/-- Base-10 digits of `n`, least significant first. -/
def natDigits (n : Nat) : List Nat := natDigitsAux n n

/-- Python `str(n)` for a natural number. -/
def natToStr (n : Nat) : Str :=
  if n = 0 then ['0'] else ((natDigits n).map digitChar).reverse

/-- Python dict metadata, restricted to the fields the RAG code reads:
`filename` and `section_header` (absent key = `none`). -/
structure PyMeta where
  filename : Option Str := none
  sectionHeader : Option Str := none
deriving DecidableEq

instance : Inhabited PyMeta := ⟨{}⟩

/-- `metadata.get('filename', 'doc')`, as used to build chunk ids. -/
def getFname (m : PyMeta) : Str := m.filename.getD (str "doc")

/-- The chunk id `f"{filename}_chunk_{chunk_index}"`. -/
def mkChunkId (fname : Str) (i : Nat) : Str := fname ++ str "_chunk_" ++ natToStr i

/-- `TextChunk` from `chunking_service.py`. -/
structure TextChunk where
  text : Str
  chunk_id : Str
  metadata : PyMeta
  start_index : Int
  end_index : Int
deriving DecidableEq

instance : Inhabited TextChunk := ⟨⟨[], [], {}, 0, 0⟩⟩

/-- The `ChunkingService` configuration (`chunk_size`, `chunk_overlap`,
`min_chunk_size`), with the defaults from the source. -/
structure ChunkCfg where
  chunk_size : Int := 500
  chunk_overlap : Nat := 100
  min_chunk_size : Nat := 100
deriving DecidableEq

/-- The default configuration used by `RAGPipeline.__init__`
(chunk_size=500, chunk_overlap=100, min_chunk_size=100). -/
def defaultCfg : ChunkCfg := {}

/-- `re.match(r'^(#{2,3})\s+(.+)$', line)`: `some g2` is the second capture
group when the line matches, `none` otherwise.  A match needs 2 or 3 leading
`#` characters (not more), then at least one whitespace character; greedy
`\s+` with backtracking makes `group(2)` the remainder after the whitespace
run, except that a line ending in only whitespace after the hashes backtracks
one whitespace character into `group(2)`. -/
def headerMatch (line : Str) : Option Str :=
  let hashes := (line.takeWhile (· = '#')).length
  if hashes = 2 || hashes = 3 then
    let rest := line.drop hashes
    let w := (rest.takeWhile isPyWs).length
    if w = 0 then none
    else if w < rest.length then some (rest.drop w)
    else if 2 ≤ w then some (rest.drop (w - 1))
    else none
  else none

/-- A section produced by `_split_by_headers`: its dict
`{'text': ..., 'metadata': {'section_header': h}?, 'start_index': ...,
'end_index': ...}`.  `headerMeta = some h` iff the `section_header` key is
present (i.e. `current_header` was truthy). -/
structure Sect where
  text : Str
  headerMeta : Option Str
  start_index : Int
  end_index : Int
deriving DecidableEq

/-- `{'section_header': current_header} if current_header else {}`:
the key is present only when the header string is non-empty. -/
def hdrMeta (h : Option Str) : Option Str :=
  match h with
  | some t => if t = [] then none else some t
  | none => none

/-- Loop state of `_split_by_headers`: accumulated sections, the current
section's lines, current header, current section start offset, and the
running character position `sum(len(l) + 1 for processed lines)`. -/
structure HdrState where
  sections : List Sect
  cur : List Str
  hdr : Option Str
  start : Int
  pos : Int

/-- Save the in-progress section (`if current_section:` then join, strip,
and `if section_text:` append). -/
def saveSec (st : HdrState) : List Sect :=
  if st.cur = [] then st.sections
  else
    let t := pyStrip (pyJoin ['\n'] st.cur)
    if t = [] then st.sections
    else st.sections ++ [⟨t, hdrMeta st.hdr, st.start, st.start + t.length⟩]

/-- One iteration of the `_split_by_headers` line loop. -/
def hdrStep (st : HdrState) (line : Str) : HdrState :=
  match headerMatch line with
  | some g2 =>
      { sections := saveSec st
        cur := [line]
        hdr := some (pyStrip g2)
        start := st.pos
        pos := st.pos + line.length + 1 }
  | none =>
      { st with cur := st.cur ++ [line], pos := st.pos + line.length + 1 }

/-- `ChunkingService._split_by_headers`. -/
def split_by_headers (content : Str) : List Sect :=
  let lines := splitLines content
  let st := lines.foldl hdrStep ⟨[], [], none, 0, 0⟩
  let sections := saveSec st
  if sections = [] then [⟨content, none, 0, (content.length : Int)⟩] else sections

/-- Loop state of `_split_with_overlap`: emitted chunks, `current_chunk`,
`current_length`, `chunk_index` and `char_index`. -/
structure SplitState where
  chunks : List TextChunk
  current : List Str
  current_length : Int
  chunk_index : Nat
  char_index : Int

/-- Close the running chunk: `'\n\n'.join(current_chunk).strip()`. -/
def joinCurrent (cur : List Str) : Str := pyStrip (pyJoin (str "\n\n") cur)

/-- One iteration of the `_split_with_overlap` paragraph loop. -/
def splitStep (cfg : ChunkCfg) (meta : PyMeta) (st : SplitState) (para : Str) : SplitState :=
  let paraLen : Int := (para.length : Int) + 2
  if st.current_length + paraLen > cfg.chunk_size ∧ st.current ≠ [] then
    let chunkText := joinCurrent st.current
    let chunks' :=
      if chunkText = [] then st.chunks
      else st.chunks ++ [⟨chunkText, mkChunkId (getFname meta) st.chunk_index, meta,
        st.char_index - chunkText.length, st.char_index⟩]
    let idx' := if chunkText = [] then st.chunk_index else st.chunk_index + 1
    let curLen' :=
      if 0 < cfg.chunk_overlap ∧ chunkText ≠ [] then
        ((takeRight cfg.chunk_overlap chunkText).length : Int) + paraLen
      else paraLen
    let cur' :=
      if 0 < cfg.chunk_overlap ∧ chunkText ≠ [] then
        [takeRight cfg.chunk_overlap chunkText, para]
      else [para]
    ⟨chunks', cur', curLen', idx', st.char_index + paraLen⟩
  else
    ⟨st.chunks, st.current ++ [para], st.current_length + paraLen, st.chunk_index,
      st.char_index + paraLen⟩

/-- The trailing chunk appended after the `_split_with_overlap` loop. -/
def finalChunk (meta : PyMeta) (st : SplitState) : List TextChunk :=
  if st.current = [] then []
  else
    let chunkText := joinCurrent st.current
    if chunkText = [] then []
    else [⟨chunkText, mkChunkId (getFname meta) st.chunk_index, meta,
      st.char_index - chunkText.length, st.char_index⟩]

/-- `ChunkingService._split_with_overlap`. -/
def split_with_overlap (cfg : ChunkCfg) (text : Str) (meta : PyMeta)
    (start_chunk_index : Nat) (start_char_index : Int) : List TextChunk :=
  let paragraphs := splitPara text
  let st := paragraphs.foldl (splitStep cfg meta) ⟨[], [], 0, start_chunk_index, start_char_index⟩
  st.chunks ++ finalChunk meta st

/-- `{**metadata, **section.get('metadata', {})}`. -/
def withHeader (m : PyMeta) (h : Option Str) : PyMeta :=
  match h with
  | some t => { m with sectionHeader := some t }
  | none => m

/-- The chunk built for a section that fits in `chunk_size`. -/
def smallChunk (docMeta : PyMeta) (s : Sect) (idx : Nat) : TextChunk :=
  ⟨pyStrip s.text, mkChunkId (getFname docMeta) idx, withHeader docMeta s.headerMeta,
    s.start_index, s.end_index⟩

/-- The per-section loop of `chunk_markdown` (before the merge pass). -/
def chunkSections (cfg : ChunkCfg) (docMeta : PyMeta) : List Sect → Nat → List TextChunk
  | [], _ => []
  | s :: rest, idx =>
    if (s.text.length : Int) ≤ cfg.chunk_size then
      smallChunk docMeta s idx :: chunkSections cfg docMeta rest (idx + 1)
    else
      split_with_overlap cfg s.text (withHeader docMeta s.headerMeta) idx s.start_index ++
        chunkSections cfg docMeta rest (idx +
          (split_with_overlap cfg s.text (withHeader docMeta s.headerMeta)
            idx s.start_index).length)

/-- `ChunkingService._merge_small_chunks`. -/
def merge_small_chunks (cfg : ChunkCfg) : List TextChunk → List TextChunk
  | [] => []
  | [c] => [c]
  | c :: c2 :: rest =>
    if c.text.length < cfg.min_chunk_size then
      ⟨c.text ++ str "\n\n" ++ c2.text, c.chunk_id, c.metadata,
        c.start_index, c2.end_index⟩ :: merge_small_chunks cfg rest
    else
      c :: merge_small_chunks cfg (c2 :: rest)

/-- The chunk built by the merge pass from a short chunk and its successor:
texts joined by a blank line, earlier id and metadata, later end offset. -/
def mergedChunk (a b : TextChunk) : TextChunk :=
  ⟨a.text ++ str "\n\n" ++ b.text, a.chunk_id, a.metadata, a.start_index, b.end_index⟩

/-- The chunks `chunk_markdown` accumulates before the merge pass. -/
def chunksBeforeMerge (cfg : ChunkCfg) (content : Str) (metadata : PyMeta) : List TextChunk :=
  chunkSections cfg metadata (split_by_headers content) 0

/-- `ChunkingService.chunk_markdown`. -/
def chunk_markdown (cfg : ChunkCfg) (content : Str) (metadata : PyMeta) : List TextChunk :=
  merge_small_chunks cfg (chunksBeforeMerge cfg content metadata)

/-- An embedding vector; coordinates are modelled as rationals. -/
abbrev Emb := List ℚ

/-- `EmbeddingService.embed_text` for a loaded model: `self.model.encode(text)`
where the model is a fixed deterministic function `f`. -/
def embed_text (f : Str → Emb) (text : Str) : Emb := f text

/-- The batching loop of `embed_batch`: `for i in range(0, len(texts),
batch_size)` takes `texts[i:i + batch_size]` per iteration and extends the
result with `model.encode(batch)`, which embeds each text of the batch in
order.  The first argument is structural fuel bounding the number of loop
iterations (for a positive step the loop runs at most `len(texts)` times). -/
def batchedEncodeAux (f : Str → Emb) (bs : Nat) : Nat → List Str → List Emb
  | _, [] => []
  | 0, _ :: _ => []
  | fuel + 1, t :: ts =>
    ((t :: ts).take bs).map f ++ batchedEncodeAux f bs fuel ((t :: ts).drop bs)

/-- The batching loop of `embed_batch`, started with enough fuel. -/
def batchedEncode (f : Str → Emb) (bs : Nat) (texts : List Str) : List Emb :=
  batchedEncodeAux f bs texts.length texts

/-- `EmbeddingService.embed_batch`: the loop over `range(0, len(texts),
batch_size)`; Python `range` raises `ValueError` on a zero step, and the
method re-raises any exception. -/
def embed_batch (f : Str → Emb) (texts : List Str) (batch_size : Nat) :
    Except Unit (List Emb) :=
  if batch_size = 0 then .error () else .ok (batchedEncode f batch_size texts)

/-- The metadata dict stored with an index record: the chunk's metadata plus
the `chunk_id` and `text_length` fields added by the pipeline. -/
structure StoredMeta where
  base : PyMeta := {}
  chunk_id : Option Str := none
  text_length : Option Int := none
deriving DecidableEq

instance : Inhabited StoredMeta := ⟨{}⟩

/-- An index record as persisted per id: embedding, document text, metadata. -/
structure StoreRec where
  embedding : Emb
  document : Str
  metadata : StoredMeta
deriving DecidableEq

instance : Inhabited StoreRec := ⟨⟨[], [], {}⟩⟩

/-- Modelled from the spec: the vector store (the Chroma collection, an
external service not part of the repository source) persists
`(chunk_id, embedding, text, metadata)` records keyed by `chunk_id`
("upsert(ids, embeddings, documents, metadatas)", "re-ingesting a document
with unchanged chunk ids overwrites prior records"). -/
abbrev VectorStore := List (Str × StoreRec)

/-- Modelled from the spec: a single keyed write — overwrite the record of an
existing id in place, append a record for a new id. -/
def upsertOne (s : VectorStore) (kv : Str × StoreRec) : VectorStore :=
  if kv.1 ∈ s.map Prod.fst then
    s.map (fun p => if p.1 = kv.1 then (p.1, kv.2) else p)
  else s ++ [kv]

/-- Modelled from the spec: the store write
`collection.add(ids, embeddings, documents, metadatas)` — each
`(id, record)` pair is upserted, keyed by chunk id. -/
def storeAdd (s : VectorStore) (entries : List (Str × StoreRec)) : VectorStore :=
  entries.foldl upsertOne s

/-- Look an id up in the store (the record the store holds for that id). -/
def lookupStore (s : VectorStore) (k : Str) : Option StoreRec :=
  (s.find? (fun p => decide (p.1 = k))).map Prod.snd

/-- A Chroma query response for a single query embedding: parallel lists of
ids, documents, metadatas and distances. -/
structure QueryResult where
  ids : List Str
  documents : List Str
  metadatas : List StoredMeta
  distances : List ℚ
deriving DecidableEq

/-- Modelled from the spec: `collection.query(query_embeddings, n_results,
where, include)` returns the `n_results` records closest to the query
embedding, ranked by ascending distance, optionally constrained by a
metadata filter.  The distance metric is an abstract function `dist`. -/
def queryCollection (dist : Emb → Emb → ℚ) (qe : Emb) (k : Nat)
    (filt : StoredMeta → Bool) (s : VectorStore) : QueryResult :=
  let matching := s.filter (fun p => filt p.2.metadata)
  let sorted := matching.insertionSort
    (fun a b => dist qe a.2.embedding ≤ dist qe b.2.embedding)
  let top := sorted.take k
  ⟨top.map Prod.fst, top.map (fun p => p.2.document),
    top.map (fun p => p.2.metadata), top.map (fun p => dist qe p.2.embedding)⟩

/-- A retrieved chunk dict: `{"text", "metadata", "distance", "similarity"}`. -/
structure RChunk where
  text : Str
  metadata : StoredMeta
  distance : ℚ
  similarity : ℚ
deriving DecidableEq

/-- The collaborators of `RetrievalService`: the embedding call and the
Chroma query, both of which may raise, and the configured `top_k`. -/
structure RetrievalCtx where
  embed : Str → Except Unit Emb
  query : Emb → Int → Option (StoredMeta → Bool) → Except Unit QueryResult
  top_k : Int

/-- Python `top_k or self.top_k`: `None` and `0` are falsy and select the
service default. -/
def pyOrInt (x : Option Int) (d : Int) : Int :=
  match x with
  | none => d
  | some v => if v = 0 then d else v

/-- The body of the result loop: whether every index of
`range(len(ids))` is in range for the three parallel lists (otherwise the
loop raises `IndexError`, caught by the surrounding `except`). -/
def parallelOk (res : QueryResult) : Prop :=
  res.ids.length ≤ res.documents.length ∧
  res.ids.length ≤ res.metadatas.length ∧
  res.ids.length ≤ res.distances.length

instance (res : QueryResult) : Decidable (parallelOk res) := by
  unfold parallelOk
  infer_instance

/-- `RetrievalService.retrieve`: substitute the default `top_k`, embed the
query, run the store query, and convert each result's distance to
`similarity = 1 - distance`; every exception is caught and `[]` returned. -/
def retrieve (ctx : RetrievalCtx) (query : Str) (top_k : Option Int)
    (filter_metadata : Option (StoredMeta → Bool)) : List RChunk :=
  let k := pyOrInt top_k ctx.top_k
  match ctx.embed query with
  | .error _ => []
  | .ok qe =>
    match ctx.query qe k filter_metadata with
    | .error _ => []
    | .ok res =>
      if res.ids ≠ [] then
        if parallelOk res then
          (List.range res.ids.length).map (fun i =>
            ⟨res.documents.getD i [], res.metadatas.getD i {},
             res.distances.getD i 0, 1 - res.distances.getD i 0⟩)
        else []
      else []

/-- The retrieval context over a live store: Chroma raises on a non-positive
`n_results` (modelled from the spec's external query interface); otherwise it
answers with `queryCollection`; an absent `where` filter matches everything. -/
def ctxOfStore (E : Str → Except Unit Emb) (dist : Emb → Emb → ℚ)
    (s : VectorStore) (top_k : Int) : RetrievalCtx :=
  { embed := E
    query := fun qe k filt =>
      if k ≤ 0 then .error ()
      else .ok (queryCollection dist qe k.toNat (filt.getD (fun _ => true)) s)
    top_k := top_k }

/-- `RetrievalService.format_context`, one numbered part per chunk. -/
def contextPart (i : Nat) (c : RChunk) : Str :=
  let header := (c.metadata.base.sectionHeader).getD []
  let source := (c.metadata.base.filename).getD (str "Policy Document")
  str "[Policy Reference " ++ natToStr i ++ str "]" ++
    (if header ≠ [] then str "\nSection: " ++ header else []) ++
    str "\nSource: " ++ source ++
    str "\nContent:\n" ++ c.text ++ str "\n"

/-- `RetrievalService.format_context`. -/
def format_context (chunks : List RChunk) : Str :=
  if chunks = [] then str "No relevant policy information found."
  else
    let parts := (chunks.enumFrom 1).map (fun p => contextPart p.1 p.2)
    List.intercalate (str "\n---\n") parts

/-- Spec-side description of the context block: one part per result, numbered
consecutively from `i`. -/
def formatPartsFrom : Nat → List RChunk → List Str
  | _, [] => []
  | i, c :: rest => contextPart i c :: formatPartsFrom (i + 1) rest

/-- A small concrete store record for examples: id `str(n)`, embedding
`[n]`, document text `"t"`, empty metadata. -/
def exRec (n : Nat) : Str × StoreRec := (natToStr n, ⟨[(n : ℚ)], str "t", {}⟩)

/-- A loaded document (`DocumentLoader.load_markdown_file` result):
content plus metadata. -/
structure Doc where
  content : Str
  metadata : PyMeta
deriving DecidableEq

/-- The stored metadata for a chunk:
`{**chunk.metadata, "chunk_id": chunk.chunk_id, "text_length": len(chunk.text)}`. -/
def chunkStoredMeta (c : TextChunk) : StoredMeta :=
  ⟨c.metadata, some c.chunk_id, some (c.text.length : Int)⟩

/-- The per-document loop of `ingest_documents`: load then chunk each
document inside a `try`; a document whose load raises is logged and skipped
(`continue`), the chunks of the others are accumulated in order. -/
def collectChunks (cfg : ChunkCfg) (L : Str → Except Unit Doc) : List Str → List TextChunk
  | [] => []
  | p :: rest =>
    match L p with
    | .error _ => collectChunks cfg L rest
    | .ok d => chunk_markdown cfg d.content d.metadata ++ collectChunks cfg L rest

/-- The (id, record) pairs `ingest_documents` hands to the store write:
`ids`, `embeddings` (one batched `embed_batch` call with the default batch
size 32), `documents` and `metadatas` are parallel per-chunk lists. -/
def ingestEntries (cfg : ChunkCfg) (E : Str → Emb) (L : Str → Except Unit Doc)
    (paths : List Str) : List (Str × StoreRec) :=
  let all_chunks := collectChunks cfg L paths
  let texts := all_chunks.map (fun c => c.text)
  let embeddings := (embed_batch E texts 32).toOption.getD []
  (all_chunks.zip embeddings).map
    (fun p => (p.1.chunk_id, ⟨p.2, p.1.text, chunkStoredMeta p.1⟩))

/-- `RAGPipeline.ingest_documents`: load and chunk each document (skipping
failures), return `0` and leave the store untouched when no chunks result,
otherwise embed all chunk texts, write every entry to the store keyed by
chunk id, and return the number of chunks written. -/
def ingest_documents (cfg : ChunkCfg) (E : Str → Emb) (L : Str → Except Unit Doc)
    (paths : List Str) (s : VectorStore) : Nat × VectorStore :=
  let all_chunks := collectChunks cfg L paths
  if all_chunks = [] then (0, s)
  else (all_chunks.length, storeAdd s (ingestEntries cfg E L paths))

/-- The entry written for one chunk when the model is `E`. -/
def entryOf (E : Str → Emb) (c : TextChunk) : Str × StoreRec :=
  (c.chunk_id, ⟨E c.text, c.text, chunkStoredMeta c⟩)

/-- The record the store ends up holding for an id after a batched write:
the last entry written under that id. -/
def lastWrite (k : Str) (entries : List (Str × StoreRec)) : Option StoreRec :=
  ((entries.filter (fun e => decide (e.1 = k))).getLast?).map Prod.snd

/-- A concrete loader for the C1 witness: every path loads to the document
`"hello"` with filename `"d"`. -/
def exLoader : Str → Except Unit Doc := fun _ => .ok ⟨str "hello", ⟨some (str "d"), none⟩⟩

/-- The paragraph `p` is the one whose arrival overflowed the running chunk
that was closed as `a`: writing `j` for the unstripped blank-line join of
that running chunk (so `a.text = j.strip()`), the loop's tracked
`current_length` is `len(j)` when the running chunk was overlap-seeded and
`len(j) + 2` otherwise, and the close guard
`current_length + (len(p) + 2) > chunk_size` held. -/
def TriggeredBy (cfg : ChunkCfg) (a : TextChunk) (p : Str) : Prop :=
  ∃ j L, a.text = pyStrip j ∧
    (L = (j.length : Int) ∨ L = (j.length : Int) + 2) ∧
    cfg.chunk_size < L + ((p.length : Int) + 2)

/-- The relation the overlap seeding establishes between consecutive chunks
of a split of a section whose paragraph list is `paras`: the later chunk's
text is the whitespace-stripped concatenation of the trailing
`chunk_overlap` characters of the earlier chunk's text, a blank line, and
the accumulated remainder — the blank-line join of a contiguous run
`p :: rest` of `paras` whose first paragraph `p` is the one that triggered
the overflow that closed the earlier chunk. -/
def OverlapSeeded (cfg : ChunkCfg) (paras : List Str) (a b : TextChunk) : Prop :=
  ∃ p rest, List.IsInfix (p :: rest) paras ∧ TriggeredBy cfg a p ∧
    b.text = pyStrip (takeRight cfg.chunk_overlap a.text ++ str "\n\n" ++
      pyJoin (str "\n\n") (p :: rest))

/-- The loop invariant of `_split_with_overlap` for overlap seeding, stated
over the list `pre` of paragraphs consumed so far: consecutive emitted
chunks are overlap-related; `current_length` is the length of the unstripped
blank-line join of `current_chunk` (exactly when overlap-seeded, plus 2
otherwise, and 0 when `current_chunk` is empty); and whenever a chunk has
been emitted, `current_chunk` is the trailing overlap of the last emitted
chunk (whose text is a non-empty stripped string) followed by the contiguous
run of consumed paragraphs that begins with the overflow trigger. -/
def OvInv (cfg : ChunkCfg) (pre : List Str) (st : SplitState) : Prop :=
  List.Chain' (OverlapSeeded cfg pre) st.chunks ∧
  ((st.current = [] ∧ st.current_length = 0) ∨
    (st.current ≠ [] ∧
      (st.current_length = ((pyJoin (str "\n\n") st.current).length : Int) ∨
       st.current_length = ((pyJoin (str "\n\n") st.current).length : Int) + 2))) ∧
  ∀ c, st.chunks.getLast? = some c →
    (∃ w, c.text = pyStrip w) ∧ c.text ≠ [] ∧
    ∃ p rest, List.IsSuffix (p :: rest) pre ∧ TriggeredBy cfg c p ∧
      st.current = takeRight cfg.chunk_overlap c.text :: p :: rest

/-- The chunk `_split_with_overlap` closes at state `st`. -/
def closeChunk (meta : PyMeta) (st : SplitState) : TextChunk :=
  ⟨joinCurrent st.current, mkChunkId (getFname meta) st.chunk_index, meta,
    st.char_index - (joinCurrent st.current).length, st.char_index⟩

/-- The guard of the close branch of the paragraph loop. -/
def closes (cfg : ChunkCfg) (st : SplitState) (para : Str) : Prop :=
  st.current_length + ((para.length : Int) + 2) > cfg.chunk_size ∧ st.current ≠ []

instance (cfg : ChunkCfg) (st : SplitState) (para : Str) :
    Decidable (closes cfg st para) := by
  unfold closes
  infer_instance

/-- The `_split_with_overlap` loop invariant for claim C4: per-chunk offset
arithmetic, monotone end offsets bounded by the running `char_index`, and
consecutively numbered chunk ids. -/
structure C4Inv (fname : Str) (id0 : Nat) (c0 : Int) (st : SplitState) : Prop where
  ends_eq : ∀ c ∈ st.chunks, c.end_index = c.start_index + c.text.length
  chain : List.Chain' (fun a b : TextChunk => a.end_index ≤ b.end_index) st.chunks
  ub : ∀ c ∈ st.chunks, c.end_index ≤ st.char_index
  lb : ∀ c ∈ st.chunks, c0 + 2 ≤ c.end_index
  cur_lb : st.current = [] ∨ c0 + 2 ≤ st.char_index
  char_lb : c0 ≤ st.char_index
  idx_eq : st.chunk_index = id0 + st.chunks.length
  ids : st.chunks.map (fun c => c.chunk_id) =
    (List.range' id0 st.chunks.length).map (mkChunkId fname)

/-- The `_split_by_headers` loop invariant: saved sections have consistent
offsets, non-empty text, and are separated by at least one character; the
running position bookkeeping ties the current section to its start. -/
structure HInv (st : HdrState) : Prop where
  ends : ∀ s ∈ st.sections, s.end_index = s.start_index + s.text.length
  nonempty : ∀ s ∈ st.sections, s.text ≠ []
  chain : List.Chain' (fun a b : Sect =>
    a.start_index + a.text.length + 1 ≤ b.start_index) st.sections
  bound : ∀ s ∈ st.sections, s.start_index + s.text.length + 1 ≤ st.start
  start_le : st.start ≤ st.pos
  pos_eq : st.pos = st.start + (st.cur.map (fun l => (l.length : Int) + 1)).sum

/-! ### Theorems -/

theorem mem_dropLast_cons {α : Type*} {c x : α} {xs : List α}
    (h : c ∈ (x :: xs).dropLast) : c = x ∨ c ∈ xs.dropLast := by
  cases xs with
  | nil => simp at h
  | cons y ys =>
    rw [List.dropLast_cons₂] at h
    rcases List.mem_cons.mp h with h | h
    · exact Or.inl h
    · exact Or.inr h

theorem merge_small_chunks_cons_of_lt (cfg : ChunkCfg) (c c2 : TextChunk)
    (rest : List TextChunk) (h : c.text.length < cfg.min_chunk_size) :
    merge_small_chunks cfg (c :: c2 :: rest) =
      mergedChunk c c2 :: merge_small_chunks cfg rest := by
  simp [merge_small_chunks, h, mergedChunk]

theorem merge_small_chunks_cons_of_le (cfg : ChunkCfg) (c c2 : TextChunk)
    (rest : List TextChunk) (h : ¬ c.text.length < cfg.min_chunk_size) :
    merge_small_chunks cfg (c :: c2 :: rest) =
      c :: merge_small_chunks cfg (c2 :: rest) := by
  simp [merge_small_chunks, h]

/-- Every non-final chunk that survives the merge pass either meets
`min_chunk_size` or is the merge of a short chunk with its immediate
successor (and that merged result is not re-examined). -/
theorem merge_small_chunks_dropLast (cfg : ChunkCfg) :
    ∀ l : List TextChunk, ∀ c ∈ (merge_small_chunks cfg l).dropLast,
      cfg.min_chunk_size ≤ c.text.length ∨
      ∃ a b, [a, b] <:+: l ∧ a.text.length < cfg.min_chunk_size ∧ c = mergedChunk a b
  | [] => by simp [merge_small_chunks]
  | [c] => by simp [merge_small_chunks]
  | c :: c2 :: rest => by
    intro x hx
    by_cases hlt : c.text.length < cfg.min_chunk_size
    · rw [merge_small_chunks_cons_of_lt cfg c c2 rest hlt] at hx
      rcases mem_dropLast_cons hx with rfl | h
      · exact Or.inr ⟨c, c2, ⟨[], rest, rfl⟩, hlt, rfl⟩
      · rcases merge_small_chunks_dropLast cfg rest x h with h | ⟨a, b, ⟨s, t, hst⟩, hab, hc⟩
        · exact Or.inl h
        · exact Or.inr ⟨a, b, ⟨c :: c2 :: s, t, by rw [← hst]; simp⟩, hab, hc⟩
    · rw [merge_small_chunks_cons_of_le cfg c c2 rest hlt] at hx
      rcases mem_dropLast_cons hx with rfl | h
      · exact Or.inl (le_of_not_lt hlt)
      · rcases merge_small_chunks_dropLast cfg (c2 :: rest) x h with h | ⟨a, b, ⟨s, t, hst⟩, hab, hc⟩
        · exact Or.inl h
        · exact Or.inr ⟨a, b, ⟨c :: s, t, by rw [← hst]; simp⟩, hab, hc⟩
termination_by l => l.length

/-- C2 (amended): the merge pass merges any non-final chunk shorter than
`min_chunk_size` with the immediately following chunk, joining texts with a
blank line and keeping the earlier chunk's id and metadata and the later
chunk's end offset.  However, the resulting merged chunk is not re-examined,
so a non-final chunk of `chunk_markdown`'s output is only guaranteed to be
either at least `min_chunk_size` long or the single merge of a short
pre-merge chunk with its immediate successor (which may still be shorter
than `min_chunk_size`). -/
theorem merge_pass_behaviour :
    (∀ (cfg : ChunkCfg) (c c2 : TextChunk) (rest : List TextChunk),
        c.text.length < cfg.min_chunk_size →
        merge_small_chunks cfg (c :: c2 :: rest) =
          mergedChunk c c2 :: merge_small_chunks cfg rest) ∧
    (∀ (cfg : ChunkCfg) (content : Str) (meta : PyMeta),
        ∀ c ∈ (chunk_markdown cfg content meta).dropLast,
          cfg.min_chunk_size ≤ c.text.length ∨
          ∃ a b, [a, b] <:+: chunksBeforeMerge cfg content meta ∧
            a.text.length < cfg.min_chunk_size ∧ c = mergedChunk a b) :=
  ⟨merge_small_chunks_cons_of_lt,
   fun cfg content meta => merge_small_chunks_dropLast cfg (chunksBeforeMerge cfg content meta)⟩

/-- C2 counterexample: for the document `"## A\nx\n## B\ny\n## C\nz"` with
the default configuration, `chunk_markdown` returns two chunks and the first
(non-final) one has text length 14 < `min_chunk_size` = 100: the merge of the
two 6-character sections is not re-merged with the rest. -/
theorem merge_pass_min_size_violated :
    ¬ (∀ c ∈ (chunk_markdown defaultCfg (str "## A\nx\n## B\ny\n## C\nz") {}).dropLast,
        defaultCfg.min_chunk_size ≤ c.text.length) := by
  decide

/-- Witness for C2: the merge equation and the output disjunction hold on a
concrete short chunk pair. -/
theorem merge_pass_behaviour_witness :
    merge_small_chunks defaultCfg
      [⟨str "ab", str "i0", {}, 0, 2⟩, ⟨str "cd", str "i1", {}, 4, 6⟩] =
      [mergedChunk ⟨str "ab", str "i0", {}, 0, 2⟩ ⟨str "cd", str "i1", {}, 4, 6⟩] := by
  have h := merge_pass_behaviour.1 defaultCfg ⟨str "ab", str "i0", {}, 0, 2⟩
    ⟨str "cd", str "i1", {}, 4, 6⟩ [] (by decide)
  simpa [merge_small_chunks] using h

theorem batchedEncodeAux_eq_map (f : Str → Emb) (bs : Nat) (hbs : 0 < bs) :
    ∀ (fuel : Nat) (texts : List Str), texts.length ≤ fuel →
      batchedEncodeAux f bs fuel texts = texts.map f := by
  intro fuel
  induction fuel with
  | zero =>
    intro texts hle
    have he : texts = [] := List.length_eq_zero.mp (Nat.le_zero.mp hle)
    subst he
    rfl
  | succ n ih =>
    intro texts hle
    cases texts with
    | nil => rfl
    | cons t ts =>
      rw [batchedEncodeAux,
        ih ((t :: ts).drop bs)
          (by simp only [List.length_drop, List.length_cons]
              simp only [List.length_cons] at hle
              omega),
        ← List.map_append, List.take_append_drop]

theorem batchedEncode_eq_map (f : Str → Emb) (bs : Nat) (hbs : 0 < bs) :
    ∀ texts : List Str, batchedEncode f bs texts = texts.map f :=
  fun texts => batchedEncodeAux_eq_map f bs hbs texts.length texts le_rfl

theorem embed_batch_ok (f : Str → Emb) (texts : List Str) (bs : Nat)
    (hbs : 0 < bs) : embed_batch f texts bs = .ok (texts.map f) := by
  rw [embed_batch, if_neg (Nat.pos_iff_ne_zero.mp hbs), batchedEncode_eq_map f bs hbs]

/-- C8: with a positive batch size, `embed_batch` returns exactly one vector
per input text, in input order (it equals the pointwise map of the model over
the texts), and `embed_text t` is the sole element of `embed_batch [t]`. -/
theorem embed_batch_spec (f : Str → Emb) (texts : List Str) (bs : Nat)
    (hbs : 0 < bs) :
    embed_batch f texts bs = .ok (texts.map f) ∧
    (texts.map f).length = texts.length ∧
    embed_batch f [texts.headI] bs = .ok [embed_text f texts.headI] := by
  refine ⟨embed_batch_ok f texts bs hbs, List.length_map _ _, ?_⟩
  rw [embed_batch_ok f [texts.headI] bs hbs]
  rfl

/-- Witness for C8 at a concrete model, text list and batch size. -/
theorem embed_batch_spec_witness :
    embed_batch (fun _ => [(0 : ℚ)]) [str "ab", str "c", str "def"] 2 =
      .ok [[(0 : ℚ)], [(0 : ℚ)], [(0 : ℚ)]] :=
  (embed_batch_spec (fun _ => [(0 : ℚ)]) [str "ab", str "c", str "def"] 2
    (by decide)).1

theorem enumFrom_map_contextPart (n : Nat) (cs : List RChunk) :
    (cs.enumFrom n).map (fun p => contextPart p.1 p.2) = formatPartsFrom n cs := by
  induction cs generalizing n with
  | nil => rfl
  | cons c rest ih => simp [List.enumFrom, formatPartsFrom, ih]

/-- C9: `format_context` of an empty result sequence is the fixed
"no information found" sentinel, and of a non-empty sequence it is the
deterministic numbered concatenation (numbered from 1) of the per-result
parts — section header when present, source filename, chunk text — joined by
the visible `\n---\n` separator. -/
theorem format_context_spec :
    format_context [] = str "No relevant policy information found." ∧
    ∀ chunks : List RChunk, chunks ≠ [] →
      format_context chunks =
        List.intercalate (str "\n---\n") (formatPartsFrom 1 chunks) := by
  refine ⟨rfl, fun chunks h => ?_⟩
  rw [format_context, if_neg h]
  rw [enumFrom_map_contextPart]

/-- Witness for C9 on a one-element result list. -/
theorem format_context_spec_witness :
    format_context [⟨str "T", {}, 0, 1⟩] =
      List.intercalate (str "\n---\n") (formatPartsFrom 1 [⟨str "T", {}, 0, 1⟩]) :=
  format_context_spec.2 [⟨str "T", {}, 0, 1⟩] (by decide)

/-- C10: calling `retrieve` with explicit `top_k=0` behaves identically to
omitting `top_k`: `0` is falsy in `k = top_k or self.top_k`, so the service
default is substituted; with the default `top_k = 3` and three indexed
records the call returns 3 results rather than zero. -/
theorem retrieve_topk_zero_default :
    (∀ (ctx : RetrievalCtx) (q : Str) (filt : Option (StoredMeta → Bool)),
        retrieve ctx q (some 0) filt = retrieve ctx q none filt ∧
        pyOrInt (some 0) ctx.top_k = ctx.top_k) ∧
    (retrieve (ctxOfStore (fun _ => .ok []) (fun _ _ => 0)
        [exRec 0, exRec 1, exRec 2] 3) (str "q") (some 0) none).length = 3 := by
  refine ⟨fun ctx q filt => ⟨rfl, rfl⟩, ?_⟩
  decide

/-- C6: `retrieve` is a total function that returns the empty list on every
failure path: when the embedding call raises, when the store query raises
(store unreachable, malformed filter, non-existent collection), and on an
empty index, where the store finds no matches. -/
theorem retrieve_error_handling :
    (∀ (ctx : RetrievalCtx) (q : Str) (tk : Option Int)
        (filt : Option (StoredMeta → Bool)),
        ctx.embed q = .error () → retrieve ctx q tk filt = []) ∧
    (∀ (ctx : RetrievalCtx) (q : Str) (tk : Option Int)
        (filt : Option (StoredMeta → Bool)) (qe : Emb),
        ctx.embed q = .ok qe →
        ctx.query qe (pyOrInt tk ctx.top_k) filt = .error () →
        retrieve ctx q tk filt = []) ∧
    (∀ (E : Str → Except Unit Emb) (dist : Emb → Emb → ℚ) (tk0 : Int) (q : Str)
        (tk : Option Int) (filt : Option (StoredMeta → Bool)),
        retrieve (ctxOfStore E dist [] tk0) q tk filt = []) := by
  refine ⟨fun ctx q tk filt he => ?_, fun ctx q tk filt qe he hq => ?_,
    fun E dist tk0 q tk filt => ?_⟩
  · rw [retrieve, he]
  · simp only [retrieve, he, hq]
  · simp only [retrieve, ctxOfStore]
    cases hE : E q with
    | error e => rfl
    | ok qe =>
      by_cases hk : pyOrInt tk tk0 ≤ 0
      · simp [hk]
      · simp [hk, queryCollection]

theorem getD_of_lt {α : Type*} (l : List α) (d : α) (i : Nat) (h : i < l.length) :
    l.getD i d = l[i] := by
  simp [List.getD_eq_getElem?_getD, List.getElem?_eq_getElem h]

/-- The shape of a successful `retrieve`: one result dict per returned id. -/
theorem retrieve_eq_of_ok (ctx : RetrievalCtx) (q : Str) (tk : Option Int)
    (filt : Option (StoredMeta → Bool)) (qe : Emb) (res : QueryResult)
    (he : ctx.embed q = .ok qe)
    (hq : ctx.query qe (pyOrInt tk ctx.top_k) filt = .ok res)
    (hne : res.ids ≠ []) (hok : parallelOk res) :
    retrieve ctx q tk filt = (List.range res.ids.length).map (fun i =>
      ⟨res.documents.getD i [], res.metadatas.getD i {}, res.distances.getD i 0,
       1 - res.distances.getD i 0⟩) := by
  simp only [retrieve, he, hq, if_pos hne, if_pos hok]

/-- A successful query with no matching ids yields the empty result list. -/
theorem retrieve_eq_nil_of_empty (ctx : RetrievalCtx) (q : Str) (tk : Option Int)
    (filt : Option (StoredMeta → Bool)) (qe : Emb) (res : QueryResult)
    (he : ctx.embed q = .ok qe)
    (hq : ctx.query qe (pyOrInt tk ctx.top_k) filt = .ok res)
    (hne : res.ids = []) :
    retrieve ctx q tk filt = [] := by
  simp only [retrieve, he, hq, hne]
  simp

theorem queryCollection_lengths (dist : Emb → Emb → ℚ) (qe : Emb) (k : Nat)
    (filt : StoredMeta → Bool) (s : VectorStore) :
    (queryCollection dist qe k filt s).documents.length =
      (queryCollection dist qe k filt s).ids.length ∧
    (queryCollection dist qe k filt s).metadatas.length =
      (queryCollection dist qe k filt s).ids.length ∧
    (queryCollection dist qe k filt s).distances.length =
      (queryCollection dist qe k filt s).ids.length ∧
    (queryCollection dist qe k filt s).ids.length ≤ k := by
  refine ⟨by simp [queryCollection], by simp [queryCollection],
    by simp [queryCollection], ?_⟩
  simp only [queryCollection, List.length_map, List.length_take]
  exact min_le_left _ _

/-- The distances reported by the modelled store query are ascending. -/
theorem queryCollection_distances_sorted (dist : Emb → Emb → ℚ) (qe : Emb)
    (k : Nat) (filt : StoredMeta → Bool) (s : VectorStore) :
    List.Sorted (· ≤ ·) (queryCollection dist qe k filt s).distances := by
  have hr : IsTotal (Str × StoreRec)
      (fun a b => dist qe a.2.embedding ≤ dist qe b.2.embedding) :=
    ⟨fun a b => le_total _ _⟩
  have ht : IsTrans (Str × StoreRec)
      (fun a b => dist qe a.2.embedding ≤ dist qe b.2.embedding) :=
    ⟨fun _ _ _ hab hbc => le_trans hab hbc⟩
  have hs := List.sorted_insertionSort
    (fun a b : Str × StoreRec => dist qe a.2.embedding ≤ dist qe b.2.embedding)
    (s.filter (fun p => filt p.2.metadata))
  have htake := hs.sublist (List.take_sublist k _)
  exact (List.pairwise_map).mpr htake

/-- C5 (amended): for every query and every explicit `k ≥ 1`,
`retrieve(query, top_k=k)` over the store returns at most `k` results, sorted
by non-increasing similarity, and each result's `similarity` equals
`1 - distance` as reported by the store.  (For `k = 0` the claim fails: `0`
is falsy and the default `top_k` is substituted — see the counterexample.) -/
theorem retrieve_topk_spec (E : Str → Except Unit Emb) (dist : Emb → Emb → ℚ)
    (s : VectorStore) (tk0 : Int) (q : Str) (filt : Option (StoredMeta → Bool))
    (k : Int) (hk : 1 ≤ k) :
    ((retrieve (ctxOfStore E dist s tk0) q (some k) filt).length : Int) ≤ k ∧
    List.Sorted (fun a b : RChunk => b.similarity ≤ a.similarity)
      (retrieve (ctxOfStore E dist s tk0) q (some k) filt) ∧
    ∀ r ∈ retrieve (ctxOfStore E dist s tk0) q (some k) filt,
      r.similarity = 1 - r.distance := by
  have hkk : pyOrInt (some k) tk0 = k := by
    simp only [pyOrInt]
    rw [if_neg (by omega : ¬ k = 0)]
  cases he : E q with
  | error e =>
    have hnil : retrieve (ctxOfStore E dist s tk0) q (some k) filt = [] := by
      simp only [retrieve, ctxOfStore, he]
    rw [hnil]
    exact ⟨by simp only [List.length_nil, Nat.cast_zero]; omega, List.sorted_nil, by simp⟩
  | ok qe =>
    have hq : (ctxOfStore E dist s tk0).query qe
        (pyOrInt (some k) (ctxOfStore E dist s tk0).top_k) filt =
        .ok (queryCollection dist qe k.toNat (filt.getD (fun _ => true)) s) := by
      simp only [ctxOfStore, hkk]
      rw [if_neg (by omega : ¬ k ≤ 0)]
    set res := queryCollection dist qe k.toNat (filt.getD (fun _ => true)) s with hres
    obtain ⟨hd, hm, hdist, hlen⟩ :=
      queryCollection_lengths dist qe k.toNat (filt.getD (fun _ => true)) s
    by_cases hne : res.ids = []
    · rw [retrieve_eq_nil_of_empty (ctxOfStore E dist s tk0) q (some k) filt qe res
        (by simpa [ctxOfStore] using he) hq hne]
      exact ⟨by simp only [List.length_nil, Nat.cast_zero]; omega, List.sorted_nil, by simp⟩
    · have hok : parallelOk res := ⟨le_of_eq hd.symm, le_of_eq hm.symm, le_of_eq hdist.symm⟩
      have heq := retrieve_eq_of_ok (ctxOfStore E dist s tk0) q (some k) filt qe res
        (by simpa [ctxOfStore] using he) hq hne hok
      rw [heq]
      have hsorted := queryCollection_distances_sorted dist qe k.toNat
        (filt.getD (fun _ => true)) s
      rw [← hres] at hsorted
      refine ⟨?_, ?_, ?_⟩
      · rw [List.length_map, List.length_range]
        have : (res.ids.length : Int) ≤ (k.toNat : Int) := Int.ofNat_le.mpr hlen
        omega
      · rw [List.Sorted, List.pairwise_map]
        rw [List.pairwise_iff_getElem]
        intro i j hi hj hij
        simp only [List.getElem_range]
        have hi' : i < res.distances.length := by
          rw [hdist]; simpa using hi
        have hj' : j < res.distances.length := by
          rw [hdist]; simpa using hj
        have := hsorted.rel_get_of_lt
          (a := ⟨i, hi'⟩) (b := ⟨j, hj'⟩) (by exact hij)
        rw [getD_of_lt _ _ _ hi', getD_of_lt _ _ _ hj']
        simp only [List.get_eq_getElem] at this
        linarith
      · intro r hr
        obtain ⟨i, _, rfl⟩ := List.mem_map.mp hr
        rfl

/-- C5 counterexample: with a non-empty store and service default `top_k = 3`,
the call `retrieve(query, top_k=0)` returns 1 result, not at most 0: `0` is
falsy in `top_k or self.top_k`. -/
theorem retrieve_topk_claim_false :
    ¬ ((retrieve (ctxOfStore (fun _ => .ok []) (fun _ _ => 0) [exRec 0] 3)
        (str "q") (some 0) none).length ≤ 0) := by
  decide

/-- Witness for C5 on a concrete two-record store with `k = 2`. -/
theorem retrieve_topk_spec_witness :
    (1 : Int) ≤ 2 ∧
    ((retrieve (ctxOfStore (fun _ => .ok []) (fun _ _ => 0) [exRec 0, exRec 1] 3)
        (str "q") (some 2) none).length : Int) ≤ 2 :=
  ⟨by decide,
   (retrieve_topk_spec (fun _ => .ok []) (fun _ _ => 0) [exRec 0, exRec 1] 3
     (str "q") none 2 (by decide)).1⟩

theorem zip_map_self {α β : Type*} (g : α → β) :
    ∀ l : List α, l.zip (l.map g) = l.map (fun a => (a, g a))
  | [] => rfl
  | a :: l => by simp [List.zip_cons_cons, zip_map_self g l]

theorem ingestEntries_eq_map (cfg : ChunkCfg) (E : Str → Emb)
    (L : Str → Except Unit Doc) (paths : List Str) :
    ingestEntries cfg E L paths = (collectChunks cfg L paths).map (entryOf E) := by
  simp only [ingestEntries]
  rw [embed_batch_ok E ((collectChunks cfg L paths).map (fun c => c.text)) 32
    (by decide)]
  show ((collectChunks cfg L paths).zip
    (((collectChunks cfg L paths).map (fun c => c.text)).map E)).map _ = _
  rw [List.map_map, zip_map_self, List.map_map]
  rfl

theorem map_fst_upsertOne_of_mem (s : VectorStore) (kv : Str × StoreRec)
    (h : kv.1 ∈ s.map Prod.fst) :
    (upsertOne s kv).map Prod.fst = s.map Prod.fst := by
  rw [upsertOne, if_pos h, List.map_map]
  apply List.map_congr_left
  intro p _
  by_cases hp : p.1 = kv.1 <;> simp [hp]

theorem mem_map_fst_upsertOne (s : VectorStore) (kv : Str × StoreRec)
    (x : Str) (h : x ∈ s.map Prod.fst) : x ∈ (upsertOne s kv).map Prod.fst := by
  rw [upsertOne]
  by_cases hm : kv.1 ∈ s.map Prod.fst
  · rw [if_pos hm, List.map_map]
    obtain ⟨p, hp, rfl⟩ := List.mem_map.mp h
    apply List.mem_map.mpr
    refine ⟨p, hp, ?_⟩
    by_cases hp1 : p.1 = kv.1 <;> simp [hp1]
  · rw [if_neg hm, List.map_append]
    exact List.mem_append_left _ h

theorem self_mem_map_fst_upsertOne (s : VectorStore) (kv : Str × StoreRec) :
    kv.1 ∈ (upsertOne s kv).map Prod.fst := by
  rw [upsertOne]
  by_cases hm : kv.1 ∈ s.map Prod.fst
  · rw [if_pos hm, List.map_map]
    obtain ⟨p, hp, hpe⟩ := List.mem_map.mp hm
    apply List.mem_map.mpr
    exact ⟨p, hp, by simp [hpe]⟩
  · rw [if_neg hm, List.map_append]
    exact List.mem_append_right _ (by simp)

theorem mem_map_fst_storeAdd (x : Str) :
    ∀ (entries : List (Str × StoreRec)) (s : VectorStore),
      x ∈ s.map Prod.fst → x ∈ (storeAdd s entries).map Prod.fst
  | [], s, h => h
  | e :: rest, s, h =>
    mem_map_fst_storeAdd x rest (upsertOne s e) (mem_map_fst_upsertOne s e x h)

theorem entry_mem_map_fst_storeAdd :
    ∀ (entries : List (Str × StoreRec)) (s : VectorStore) (k : Str),
      k ∈ entries.map Prod.fst → k ∈ (storeAdd s entries).map Prod.fst := by
  intro entries
  induction entries with
  | nil => intro s k h; simp at h
  | cons e rest ih =>
    intro s k h
    rcases List.mem_cons.mp ((List.map_cons _ e rest) ▸ h) with h | h
    · subst h
      exact mem_map_fst_storeAdd e.1 rest (upsertOne s e) (self_mem_map_fst_upsertOne s e)
    · exact ih (upsertOne s e) k h

theorem map_fst_storeAdd_of_sub :
    ∀ (entries : List (Str × StoreRec)) (s : VectorStore),
      (∀ x ∈ entries.map Prod.fst, x ∈ s.map Prod.fst) →
      (storeAdd s entries).map Prod.fst = s.map Prod.fst := by
  intro entries
  induction entries with
  | nil => intro s _; rfl
  | cons e rest ih =>
    intro s hsub
    have he : e.1 ∈ s.map Prod.fst := hsub e.1 (by simp)
    have hkeys := map_fst_upsertOne_of_mem s e he
    have : (storeAdd (upsertOne s e) rest).map Prod.fst = (upsertOne s e).map Prod.fst := by
      apply ih
      intro x hx
      rw [hkeys]
      exact hsub x (by simp [hx])
    calc (storeAdd s (e :: rest)).map Prod.fst
        = (storeAdd (upsertOne s e) rest).map Prod.fst := rfl
      _ = (upsertOne s e).map Prod.fst := this
      _ = s.map Prod.fst := hkeys

theorem find?_map_replace (s : VectorStore) (k : Str) (v : StoreRec) (key : Str) :
    (s.map (fun p => if p.1 = k then (p.1, v) else p)).find?
        (fun p => decide (p.1 = key)) =
      (s.find? (fun p => decide (p.1 = key))).map
        (fun p => if p.1 = k then (p.1, v) else p) := by
  have hpred : ((fun p : Str × StoreRec => decide (p.1 = key)) ∘
      fun p => if p.1 = k then (p.1, v) else p) =
      (fun p : Str × StoreRec => decide (p.1 = key)) := by
    funext p
    by_cases h : p.1 = k <;> simp [h]
  rw [List.find?_map, hpred]

theorem lookup_upsertOne_self (s : VectorStore) (kv : Str × StoreRec) :
    lookupStore (upsertOne s kv) kv.1 = some kv.2 := by
  rw [upsertOne]
  by_cases hm : kv.1 ∈ s.map Prod.fst
  · rw [if_pos hm]
    unfold lookupStore
    rw [find?_map_replace]
    obtain ⟨p, hp, hpe⟩ := List.mem_map.mp hm
    have hsome : (s.find? (fun p => decide (p.1 = kv.1))).isSome :=
      List.find?_isSome.mpr ⟨p, hp, by simp [hpe]⟩
    obtain ⟨q, hq⟩ := Option.isSome_iff_exists.mp hsome
    have hq1 : q.1 = kv.1 := by simpa using List.find?_some hq
    rw [hq]
    simp [hq1]
  · rw [if_neg hm]
    unfold lookupStore
    rw [List.find?_append]
    have hnone : s.find? (fun p => decide (p.1 = kv.1)) = none := by
      rw [List.find?_eq_none]
      intro p hp
      simp only [decide_eq_true_eq]
      intro hc
      exact hm (List.mem_map.mpr ⟨p, hp, hc⟩)
    rw [hnone]
    simp [List.find?]

theorem lookup_upsertOne_of_ne (s : VectorStore) (kv : Str × StoreRec) (k : Str)
    (hne : k ≠ kv.1) : lookupStore (upsertOne s kv) k = lookupStore s k := by
  rw [upsertOne]
  by_cases hm : kv.1 ∈ s.map Prod.fst
  · rw [if_pos hm]
    unfold lookupStore
    rw [find?_map_replace]
    cases hf : s.find? (fun p => decide (p.1 = k)) with
    | none => rfl
    | some q =>
      have hq1 : q.1 = k := by simpa using List.find?_some hf
      have : ¬ q.1 = kv.1 := by
        rw [hq1]
        exact hne
      simp [this]
  · rw [if_neg hm]
    unfold lookupStore
    rw [List.find?_append]
    have : (fun p : Str × StoreRec => decide (p.1 = k)) kv = false := by
      simpa using Ne.symm hne
    cases hf : s.find? (fun p => decide (p.1 = k)) with
    | none => simp [List.find?, this]
    | some q => rfl

theorem lookup_storeAdd_of_not_mem :
    ∀ (entries : List (Str × StoreRec)) (s : VectorStore) (k : Str),
      k ∉ entries.map Prod.fst →
      lookupStore (storeAdd s entries) k = lookupStore s k := by
  intro entries
  induction entries with
  | nil => intro s k _; rfl
  | cons e rest ih =>
    intro s k hk
    have hk1 : k ≠ e.1 := fun hc => hk (by simp [hc])
    have hk2 : k ∉ rest.map Prod.fst := fun hc => hk (by simp [hc])
    calc lookupStore (storeAdd (upsertOne s e) rest) k
        = lookupStore (upsertOne s e) k := ih (upsertOne s e) k hk2
      _ = lookupStore s k := lookup_upsertOne_of_ne s e k hk1

theorem getLast?_cons_of_ne {α : Type*} (a : α) (l : List α) (h : l ≠ []) :
    (a :: l).getLast? = l.getLast? := by
  cases l with
  | nil => exact absurd rfl h
  | cons b t => rfl

theorem lookup_storeAdd_of_mem :
    ∀ (entries : List (Str × StoreRec)) (s : VectorStore) (k : Str),
      k ∈ entries.map Prod.fst →
      lookupStore (storeAdd s entries) k = lastWrite k entries := by
  intro entries
  induction entries with
  | nil => intro s k h; simp at h
  | cons e rest ih =>
    intro s k hk
    by_cases hr : k ∈ rest.map Prod.fst
    · rw [show storeAdd s (e :: rest) = storeAdd (upsertOne s e) rest from rfl,
        ih (upsertOne s e) k hr]
      unfold lastWrite
      obtain ⟨p, hp, hpe⟩ := List.mem_map.mp hr
      have hfil : p ∈ rest.filter (fun e => decide (e.1 = k)) :=
        List.mem_filter.mpr ⟨hp, by simp [hpe]⟩
      have hne : rest.filter (fun e => decide (e.1 = k)) ≠ [] :=
        fun hc => by simp [hc] at hfil
      rw [List.filter_cons]
      by_cases he1 : e.1 = k
      · rw [if_pos (by simp [he1]), getLast?_cons_of_ne _ _ hne]
      · rw [if_neg (by simp [he1])]
    · have hk1 : k = e.1 := by
        rcases List.mem_cons.mp ((List.map_cons _ e rest) ▸ hk) with h | h
        · exact h
        · exact absurd h hr
      subst hk1
      rw [show storeAdd s (e :: rest) = storeAdd (upsertOne s e) rest from rfl,
        lookup_storeAdd_of_not_mem rest (upsertOne s e) e.1 hr,
        lookup_upsertOne_self s e]
      unfold lastWrite
      have hfil : rest.filter (fun x => decide (x.1 = e.1)) = [] := by
        rw [List.filter_eq_nil_iff]
        intro p hp
        simp only [decide_eq_true_eq]
        intro hc
        exact hr (List.mem_map.mpr ⟨p, hp, hc⟩)
      rw [List.filter_cons]
      simp [hfil]

theorem collectChunks_eq_bind (cfg : ChunkCfg) (L : Str → Except Unit Doc) :
    ∀ paths : List Str,
      collectChunks cfg L paths =
        ((paths.filterMap (fun p => (L p).toOption)).bind
          (fun d => chunk_markdown cfg d.content d.metadata))
  | [] => rfl
  | p :: rest => by
    cases hL : L p with
    | error e =>
      simp [collectChunks, List.filterMap_cons, hL, Except.toOption,
        collectChunks_eq_bind cfg L rest]
    | ok d =>
      simp [collectChunks, List.filterMap_cons, hL, Except.toOption,
        collectChunks_eq_bind cfg L rest]

/-- C7: `ingest_documents` isolates per-document failures — the chunk count
written is exactly the number of chunks of the documents that loaded
successfully, in order, failures being skipped; and when zero chunks result
it returns `0` and leaves the store untouched (no embedding, no write). -/
theorem ingest_partial_failure (cfg : ChunkCfg) (E : Str → Emb)
    (L : Str → Except Unit Doc) (paths : List Str) (s : VectorStore) :
    (ingest_documents cfg E L paths s).1 =
      ((paths.filterMap (fun p => (L p).toOption)).bind
        (fun d => chunk_markdown cfg d.content d.metadata)).length ∧
    (collectChunks cfg L paths = [] →
      ingest_documents cfg E L paths s = (0, s)) := by
  constructor
  · rw [← collectChunks_eq_bind]
    by_cases h : collectChunks cfg L paths = []
    · simp [ingest_documents, h]
    · simp [ingest_documents, h]
  · intro h
    simp [ingest_documents, h]

/-- Witness for C7: a batch whose only document fails to load ingests zero
chunks and leaves the store unchanged. -/
theorem ingest_partial_failure_witness :
    ingest_documents defaultCfg (fun _ => [(0 : ℚ)]) (fun _ => .error ())
      [str "a"] [] = (0, []) :=
  (ingest_partial_failure defaultCfg (fun _ => [(0 : ℚ)]) (fun _ => .error ())
    [str "a"] []).2 rfl

/-- C1: re-ingesting the same documents (same loader, so identical chunking
and identical chunk ids) writes every chunk's (id, embedding, text,
metadata) entry as an upsert keyed by chunk id: each ingested id ends up
holding the last record written under it, both after the first and after the
second ingestion, and the index size after the second ingestion equals the
size after the first (not doubled). -/
theorem ingest_idempotent_by_id (cfg : ChunkCfg) (E : Str → Emb)
    (L : Str → Except Unit Doc) (paths : List Str) (s : VectorStore) :
    ((ingest_documents cfg E L paths
        (ingest_documents cfg E L paths s).2).2).length =
      ((ingest_documents cfg E L paths s).2).length ∧
    (∀ k, k ∈ (ingestEntries cfg E L paths).map Prod.fst →
      lookupStore (ingest_documents cfg E L paths s).2 k =
        lastWrite k (ingestEntries cfg E L paths) ∧
      lookupStore (ingest_documents cfg E L paths
          (ingest_documents cfg E L paths s).2).2 k =
        lastWrite k (ingestEntries cfg E L paths)) := by
  by_cases h : collectChunks cfg L paths = []
  · have hent : ingestEntries cfg E L paths = [] := by
      rw [ingestEntries_eq_map, h]
      rfl
    constructor
    · simp [ingest_documents, h]
    · intro k hk
      rw [hent] at hk
      simp at hk
  · have hs1 : (ingest_documents cfg E L paths s).2 =
        storeAdd s (ingestEntries cfg E L paths) := by
      simp [ingest_documents, h]
    have hs2 : (ingest_documents cfg E L paths
        (storeAdd s (ingestEntries cfg E L paths))).2 =
        storeAdd (storeAdd s (ingestEntries cfg E L paths))
          (ingestEntries cfg E L paths) := by
      simp [ingest_documents, h]
    have hkeys : (storeAdd (storeAdd s (ingestEntries cfg E L paths))
        (ingestEntries cfg E L paths)).map Prod.fst =
        (storeAdd s (ingestEntries cfg E L paths)).map Prod.fst :=
      map_fst_storeAdd_of_sub _ _
        (fun x hx => entry_mem_map_fst_storeAdd _ s x hx)
    constructor
    · rw [hs1, hs2]
      calc (storeAdd (storeAdd s (ingestEntries cfg E L paths))
              (ingestEntries cfg E L paths)).length
          = ((storeAdd (storeAdd s (ingestEntries cfg E L paths))
              (ingestEntries cfg E L paths)).map Prod.fst).length :=
            (List.length_map _ _).symm
        _ = ((storeAdd s (ingestEntries cfg E L paths)).map Prod.fst).length := by
            rw [hkeys]
        _ = (storeAdd s (ingestEntries cfg E L paths)).length :=
            List.length_map _ _
    · intro k hk
      refine ⟨?_, ?_⟩
      · rw [hs1]
        exact lookup_storeAdd_of_mem _ s k hk
      · rw [hs1, hs2]
        exact lookup_storeAdd_of_mem _ _ k hk

/-- Witness for C1 on a one-document corpus: the ingested id holds the
written record and re-ingestion leaves the index size unchanged. -/
theorem ingest_idempotent_witness :
    lookupStore (ingest_documents defaultCfg (fun _ => [(1 : ℚ)]) exLoader
        [str "p"] []).2 (str "d_chunk_0") =
      lastWrite (str "d_chunk_0")
        (ingestEntries defaultCfg (fun _ => [(1 : ℚ)]) exLoader [str "p"]) ∧
    ((ingest_documents defaultCfg (fun _ => [(1 : ℚ)]) exLoader [str "p"]
        (ingest_documents defaultCfg (fun _ => [(1 : ℚ)]) exLoader
          [str "p"] []).2).2).length =
      ((ingest_documents defaultCfg (fun _ => [(1 : ℚ)]) exLoader
        [str "p"] []).2).length :=
  ⟨((ingest_idempotent_by_id defaultCfg (fun _ => [(1 : ℚ)]) exLoader
      [str "p"] []).2 (str "d_chunk_0") (by decide)).1,
   (ingest_idempotent_by_id defaultCfg (fun _ => [(1 : ℚ)]) exLoader
     [str "p"] []).1⟩

theorem head?_dropWhile_false {α : Type*} (p : α → Bool) :
    ∀ (l : List α) (a : α), (l.dropWhile p).head? = some a → p a = false := by
  intro l
  induction l with
  | nil => intro a h; simp at h
  | cons x xs ih =>
    intro a h
    rw [List.dropWhile_cons] at h
    by_cases hx : p x
    · rw [if_pos hx] at h
      exact ih a h
    · rw [if_neg hx] at h
      simp only [List.head?_cons, Option.some.injEq] at h
      subst h
      exact Bool.not_eq_true _ ▸ (by simpa using hx)

/-- The last character of a stripped string is not whitespace. -/
theorem pyStrip_getLast_not_ws (u : Str) (c : Char)
    (h : (pyStrip u).getLast? = some c) : isPyWs c = false := by
  unfold pyStrip rstrip at h
  rw [List.getLast?_reverse] at h
  exact head?_dropWhile_false isPyWs _ c h

theorem mem_lstrip_of_not_ws {x : Char} {s : Str} (hx : x ∈ s)
    (hws : isPyWs x = false) : x ∈ lstrip s := by
  unfold lstrip
  rcases List.mem_append.mp ((List.takeWhile_append_dropWhile isPyWs s) ▸ hx) with h | h
  · exact absurd (List.mem_takeWhile_imp h) (by simp [hws])
  · exact h

theorem rstrip_eq_nil_iff {s : Str} : rstrip s = [] ↔ ∀ x ∈ s, isPyWs x = true := by
  unfold rstrip
  rw [List.reverse_eq_nil_iff, List.dropWhile_eq_nil_iff]
  constructor
  · intro h x hx
    exact h x (List.mem_reverse.mpr hx)
  · intro h x hx
    exact h x (List.mem_reverse.mp hx)

/-- A string that contains some non-whitespace character strips to a
non-empty string. -/
theorem pyStrip_ne_nil {x : Char} {s : Str} (hx : x ∈ s)
    (hws : isPyWs x = false) : pyStrip s ≠ [] := by
  intro hnil
  have := rstrip_eq_nil_iff.mp hnil x (mem_lstrip_of_not_ws hx hws)
  rw [hws] at this
  exact Bool.false_ne_true this

theorem getLast?_drop_of_ne_nil {α : Type*} (l : List α) (m : Nat)
    (h : l.drop m ≠ []) : (l.drop m).getLast? = l.getLast? := by
  conv_rhs => rw [← List.take_append_drop m l]
  rw [List.getLast?_append]
  cases hd : (l.drop m).getLast? with
  | none => exact absurd (List.getLast?_eq_none_iff.mp hd) h
  | some a => rfl

/-- The trailing-`k` slice of a non-empty string (for `k ≥ 1`) is non-empty
and ends in the string's last character. -/
theorem takeRight_getLast (k : Nat) (s : Str) (hk : 0 < k) (hs : s ≠ []) :
    takeRight k s ≠ [] ∧ (takeRight k s).getLast? = s.getLast? := by
  have hlen : 0 < s.length := List.length_pos.mpr hs
  have hne : s.drop (s.length - k) ≠ [] := by
    intro hc
    have := congrArg List.length hc
    rw [List.length_drop] at this
    simp at this
    omega
  exact ⟨hne, getLast?_drop_of_ne_nil s (s.length - k) hne⟩

theorem mem_pyJoin_head {a : Char} {x : Str} (sep : Str) (xs : List Str)
    (h : a ∈ x) : a ∈ pyJoin sep (x :: xs) := by
  cases xs with
  | nil => exact h
  | cons y ys => exact List.mem_append_left _ (List.mem_append_left _ h)

theorem pyJoin_cons_of_ne_nil (sep : Str) (x : Str) {t : List Str} (h : t ≠ []) :
    pyJoin sep (x :: t) = x ++ sep ++ pyJoin sep t := by
  cases t with
  | nil => exact absurd rfl h
  | cons y ys => rfl

/-- Closing a pending `current_chunk` that was seeded from chunk `c` yields
the overlap-related text, and that text is non-empty. -/
theorem joinCurrent_seeded (ov : Nat) (hov : 0 < ov) (c : TextChunk)
    (hw : ∃ w, c.text = pyStrip w) (hne : c.text ≠ []) {t : List Str}
    (ht : t ≠ []) :
    joinCurrent (takeRight ov c.text :: t) =
      pyStrip (takeRight ov c.text ++ str "\n\n" ++ pyJoin (str "\n\n") t) ∧
    joinCurrent (takeRight ov c.text :: t) ≠ [] := by
  obtain ⟨hr_ne, hr_last⟩ := takeRight_getLast ov c.text hov hne
  have heq : joinCurrent (takeRight ov c.text :: t) =
      pyStrip (takeRight ov c.text ++ str "\n\n" ++ pyJoin (str "\n\n") t) := by
    rw [joinCurrent, pyJoin_cons_of_ne_nil _ _ ht]
  refine ⟨heq, ?_⟩
  obtain ⟨ch, hch⟩ := Option.isSome_iff_exists.mp
    (List.getLast?_isSome.mpr hne : c.text.getLast?.isSome)
  have hch_ws : isPyWs ch = false := by
    obtain ⟨w, hw⟩ := hw
    exact pyStrip_getLast_not_ws w ch (hw ▸ hch)
  have hch_mem : ch ∈ takeRight ov c.text := by
    obtain ⟨hmem, hcl⟩ := List.mem_getLast?_eq_getLast (hr_last ▸ hch)
    exact hcl ▸ List.getLast_mem hmem
  rw [joinCurrent]
  exact pyStrip_ne_nil (mem_pyJoin_head _ t hch_mem) hch_ws

theorem foldl_preserve {σ α : Type*} (f : σ → α → σ) (P : σ → Prop)
    (hf : ∀ s a, P s → P (f s a)) : ∀ (l : List α) (s : σ), P s → P (l.foldl f s)
  | [], _, h => h
  | a :: l, s, h => foldl_preserve f P hf l (f s a) (hf s a h)

theorem foldl_preserve_pre {σ α : Type*} (f : σ → α → σ) (P : List α → σ → Prop)
    (hf : ∀ pre s a, P pre s → P (pre ++ [a]) (f s a)) :
    ∀ (l pre : List α) (s : σ), P pre s → P (pre ++ l) (l.foldl f s)
  | [], pre, s, h => by simpa using h
  | a :: l, pre, s, h => by
    have hstep := foldl_preserve_pre f P hf l (pre ++ [a]) (f s a) (hf pre s a h)
    simpa [List.append_assoc] using hstep

theorem pyJoin_append_singleton (sep x : Str) {l : List Str} (h : l ≠ []) :
    pyJoin sep (l ++ [x]) = pyJoin sep l ++ sep ++ x := by
  induction l with
  | nil => exact absurd rfl h
  | cons y ys ih =>
    cases ys with
    | nil => rfl
    | cons z zs =>
      rw [List.cons_append,
        pyJoin_cons_of_ne_nil sep y (by simp : (z :: zs : List Str) ++ [x] ≠ []),
        pyJoin_cons_of_ne_nil sep y (by simp : (z :: zs : List Str) ≠ []),
        ih (by simp)]
      simp [List.append_assoc]

theorem overlapSeeded_mono (cfg : ChunkCfg) (pre : List Str) (q : Str)
    (a b : TextChunk) (h : OverlapSeeded cfg pre a b) :
    OverlapSeeded cfg (pre ++ [q]) a b := by
  obtain ⟨p, rest, ⟨s, u, hsu⟩, htr, htext⟩ := h
  exact ⟨p, rest, ⟨s, u ++ [q], by rw [← hsu]; simp⟩, htr, htext⟩

theorem splitStep_open (cfg : ChunkCfg) (meta : PyMeta) (st : SplitState)
    (para : Str) (hcond : ¬ closes cfg st para) :
    splitStep cfg meta st para =
      ⟨st.chunks, st.current ++ [para],
        st.current_length + ((para.length : Int) + 2), st.chunk_index,
        st.char_index + ((para.length : Int) + 2)⟩ := by
  rw [splitStep, if_neg (show ¬ (st.current_length + ((para.length : Int) + 2) >
    cfg.chunk_size ∧ st.current ≠ []) from hcond)]

theorem splitStep_close_nil (cfg : ChunkCfg) (meta : PyMeta) (st : SplitState)
    (para : Str) (hcond : closes cfg st para)
    (hct : joinCurrent st.current = []) :
    splitStep cfg meta st para =
      ⟨st.chunks, [para], (para.length : Int) + 2, st.chunk_index,
        st.char_index + ((para.length : Int) + 2)⟩ := by
  rw [splitStep, if_pos (show st.current_length + ((para.length : Int) + 2) >
    cfg.chunk_size ∧ st.current ≠ [] from hcond)]
  simp [hct]

theorem splitStep_close_seed (cfg : ChunkCfg) (meta : PyMeta) (st : SplitState)
    (para : Str) (hov : 0 < cfg.chunk_overlap) (hcond : closes cfg st para)
    (hct : joinCurrent st.current ≠ []) :
    splitStep cfg meta st para =
      ⟨st.chunks ++ [closeChunk meta st],
        [takeRight cfg.chunk_overlap (joinCurrent st.current), para],
        ((takeRight cfg.chunk_overlap (joinCurrent st.current)).length : Int) +
          ((para.length : Int) + 2),
        st.chunk_index + 1, st.char_index + ((para.length : Int) + 2)⟩ := by
  rw [splitStep, if_pos (show st.current_length + ((para.length : Int) + 2) >
    cfg.chunk_size ∧ st.current ≠ [] from hcond)]
  simp [hct, hov, closeChunk]

theorem ovInv_step (cfg : ChunkCfg) (meta : PyMeta)
    (hov : 0 < cfg.chunk_overlap) (pre : List Str) (st : SplitState) (para : Str)
    (h : OvInv cfg pre st) :
    OvInv cfg (pre ++ [para]) (splitStep cfg meta st para) := by
  obtain ⟨hchain, hlen, hpend⟩ := h
  by_cases hcond : closes cfg st para
  · by_cases hct : joinCurrent st.current = []
    · rw [splitStep_close_nil cfg meta st para hcond hct]
      cases hlast : st.chunks.getLast? with
      | none =>
        refine ⟨List.Chain'.imp (overlapSeeded_mono cfg pre para) hchain, ?_, ?_⟩
        · right
          refine ⟨List.cons_ne_nil _ _, Or.inr ?_⟩
          show (para.length : Int) + 2 = ((pyJoin (str "\n\n") [para]).length : Int) + 2
          rfl
        · intro c hc
          simp only at hc
          rw [hlast] at hc
          exact absurd hc (by simp)
      | some c =>
        obtain ⟨hw, hne, p, rest, hsuf, htr, hcur⟩ := hpend c hlast
        obtain ⟨-, hjoin_ne⟩ := joinCurrent_seeded cfg.chunk_overlap hov c hw hne
          (List.cons_ne_nil p rest)
        rw [hcur] at hct
        exact absurd hct hjoin_ne
    · rw [splitStep_close_seed cfg meta st para hov hcond hct]
      refine ⟨?_, ?_, ?_⟩
      · show List.Chain' _ (st.chunks ++ [closeChunk meta st])
        cases hlast : st.chunks.getLast? with
        | none =>
          have h0 : st.chunks = [] := List.getLast?_eq_none_iff.mp hlast
          rw [h0]
          exact List.chain'_singleton _
        | some c =>
          obtain ⟨hw, hne, p, rest, hsuf, htr, hcur⟩ := hpend c hlast
          obtain ⟨hjoin_eq, -⟩ := joinCurrent_seeded cfg.chunk_overlap hov c hw hne
            (List.cons_ne_nil p rest)
          refine List.Chain'.append
            (List.Chain'.imp (overlapSeeded_mono cfg pre para) hchain)
            (List.chain'_singleton _) ?_
          intro x hx y hy
          rw [hlast, Option.mem_def, Option.some.injEq] at hx
          simp only [List.head?_cons, Option.mem_def, Option.some.injEq] at hy
          subst hx
          subst hy
          refine ⟨p, rest, ?_, htr, ?_⟩
          · obtain ⟨s, hs⟩ := hsuf
            exact ⟨s, [para], by rw [← hs]⟩
          · show (closeChunk meta st).text = _
            rw [closeChunk]
            simp only []
            rw [← hjoin_eq, hcur]
      · right
        refine ⟨List.cons_ne_nil _ _, Or.inl ?_⟩
        show ((takeRight cfg.chunk_overlap (joinCurrent st.current)).length : Int) +
            ((para.length : Int) + 2) =
          ((pyJoin (str "\n\n")
            [takeRight cfg.chunk_overlap (joinCurrent st.current), para]).length : Int)
        have h2 : (str "\n\n").length = 2 := rfl
        have hj : pyJoin (str "\n\n")
            [takeRight cfg.chunk_overlap (joinCurrent st.current), para] =
            takeRight cfg.chunk_overlap (joinCurrent st.current) ++ str "\n\n" ++ para := rfl
        rw [hj]
        simp only [List.length_append, h2]
        push_cast
        ring
      · intro c hc
        simp only at hc
        rw [List.getLast?_concat] at hc
        obtain rfl : closeChunk meta st = c := by simpa using hc
        refine ⟨⟨pyJoin (str "\n\n") st.current, rfl⟩, hct, para, [], ⟨pre, rfl⟩, ?_, rfl⟩
        refine ⟨pyJoin (str "\n\n") st.current, st.current_length, rfl, ?_, hcond.1⟩
        rcases hlen with ⟨hc0, -⟩ | ⟨-, hJ⟩
        · exact absurd hc0 hcond.2
        · exact hJ
  · rw [splitStep_open cfg meta st para hcond]
    refine ⟨List.Chain'.imp (overlapSeeded_mono cfg pre para) hchain, ?_, ?_⟩
    · rcases hlen with ⟨hc0, hl0⟩ | ⟨hcne, hJ⟩
      · right
        refine ⟨by simp, Or.inr ?_⟩
        show st.current_length + ((para.length : Int) + 2) =
          ((pyJoin (str "\n\n") (st.current ++ [para])).length : Int) + 2
        rw [hc0, hl0]
        show (0 : Int) + ((para.length : Int) + 2) = (para.length : Int) + 2
        omega
      · right
        refine ⟨by simp, ?_⟩
        show st.current_length + ((para.length : Int) + 2) =
            ((pyJoin (str "\n\n") (st.current ++ [para])).length : Int) ∨
          st.current_length + ((para.length : Int) + 2) =
            ((pyJoin (str "\n\n") (st.current ++ [para])).length : Int) + 2
        rw [pyJoin_append_singleton (str "\n\n") para hcne]
        have h2 : (str "\n\n").length = 2 := rfl
        simp only [List.length_append, h2]
        rcases hJ with hJ | hJ
        · left
          push_cast
          omega
        · right
          push_cast
          omega
    · intro c hc
      simp only at hc
      obtain ⟨hw, hne, p, rest, hsuf, htr, hcur⟩ := hpend c hc
      refine ⟨hw, hne, p, rest ++ [para], ?_, htr, ?_⟩
      · obtain ⟨s, hs⟩ := hsuf
        exact ⟨s, by rw [← hs]; simp⟩
      · simp only []
        rw [hcur]
        rfl

/-- C3 (amended): when an oversized section is split with `chunk_overlap > 0`,
every chunk after the first has text equal to the whitespace-stripped
concatenation of the trailing `chunk_overlap` characters of the immediately
preceding chunk's text, a blank line, and the accumulated remainder: the
blank-line join of a contiguous run of the section's paragraphs whose first
paragraph is the one that triggered the overflow closing the preceding chunk
(its arrival made the tracked running length exceed `chunk_size`).  Because
the joined text is stripped, the chunk only begins with those trailing
characters after leading whitespace is removed — the unstripped prefix claim
fails (see the counterexample). -/
theorem split_overlap_chain (cfg : ChunkCfg) (hov : 0 < cfg.chunk_overlap)
    (text : Str) (meta : PyMeta) (i0 : Nat) (c0 : Int) :
    List.Chain' (OverlapSeeded cfg (splitPara text))
      (split_with_overlap cfg text meta i0 c0) := by
  rw [split_with_overlap]
  have hinv : OvInv cfg (splitPara text)
      ((splitPara text).foldl (splitStep cfg meta) ⟨[], [], 0, i0, c0⟩) := by
    have h0 : OvInv cfg [] (⟨[], [], 0, i0, c0⟩ : SplitState) := by
      refine ⟨List.chain'_nil, Or.inl ⟨rfl, rfl⟩, ?_⟩
      intro c hc
      exact absurd hc (by simp)
    have hfold := foldl_preserve_pre (splitStep cfg meta) (OvInv cfg)
      (fun p s a hp => ovInv_step cfg meta hov p s a hp) (splitPara text) [] _ h0
    simpa using hfold
  obtain ⟨hchain, -, hpend⟩ := hinv
  set st := (splitPara text).foldl (splitStep cfg meta) ⟨[], [], 0, i0, c0⟩
  rw [finalChunk]
  by_cases hcur : st.current = []
  · rw [if_pos hcur]
    simpa using hchain
  · rw [if_neg hcur]
    by_cases hct : joinCurrent st.current = []
    · rw [if_pos hct]
      simpa using hchain
    · rw [if_neg hct]
      refine List.Chain'.append hchain (List.chain'_singleton _) ?_
      intro x hx y hy
      cases hlast : st.chunks.getLast? with
      | none =>
        rw [hlast] at hx
        exact absurd hx (by simp)
      | some c =>
        rw [hlast, Option.mem_def, Option.some.injEq] at hx
        simp only [List.head?_cons, Option.mem_def, Option.some.injEq] at hy
        subst hx
        subst hy
        obtain ⟨hw, hne, p, rest, hsuf, htr, hcur'⟩ := hpend c hlast
        obtain ⟨hjoin_eq, -⟩ := joinCurrent_seeded cfg.chunk_overlap hov c hw hne
          (List.cons_ne_nil p rest)
        refine ⟨p, rest, ?_, htr, ?_⟩
        · obtain ⟨s, hs⟩ := hsuf
          exact ⟨s, [], by simp [hs]⟩
        · show joinCurrent st.current = _
          rw [hcur']
          exact hjoin_eq

/-- C3 counterexample: with `chunk_size=10`, `chunk_overlap=5`, the section
`"abcd bcde\n\nxyz"` splits into two chunks whose first chunk's trailing 5
characters are `" bcde"`, yet the second chunk's text starts `"bcde"` — the
leading space was removed by `.strip()`, so the claimed prefix property
fails. -/
theorem split_overlap_prefix_false :
    (split_with_overlap ⟨10, 5, 100⟩ (str "abcd bcde\n\nxyz") {} 0 0).map
        (fun c => c.text) = [str "abcd bcde", str "bcde\n\nxyz"] ∧
    ¬ ((str "bcde\n\nxyz").take (takeRight 5 (str "abcd bcde")).length =
        takeRight 5 (str "abcd bcde")) := by
  decide

/-- Witness for C3 at a concrete configuration and section. -/
theorem split_overlap_chain_witness :
    List.Chain' (OverlapSeeded ⟨10, 5, 100⟩ (splitPara (str "abcd bcde\n\nxyz")))
      (split_with_overlap ⟨10, 5, 100⟩ (str "abcd bcde\n\nxyz") {} 0 0) :=
  split_overlap_chain ⟨10, 5, 100⟩ (by decide) (str "abcd bcde\n\nxyz") {} 0 0

theorem splitPara_cons_eq (c : Char) (rest : Str)
    (h : ¬ (c = '\n' ∧ ∃ r', rest = '\n' :: r')) :
    splitPara (c :: rest) = match splitPara rest with
      | [] => [[c]]
      | s :: ss => (c :: s) :: ss := by
  rw [splitPara]
  intro r' hc hr
  exact h ⟨hc, r', hr⟩

theorem splitPara_ne_nil (t : Str) : splitPara t ≠ [] := by
  have H : ∀ (n : Nat) (t : Str), t.length ≤ n → splitPara t ≠ [] := by
    intro n
    induction n with
    | zero =>
      intro t ht
      have : t = [] := List.length_eq_zero.mp (Nat.le_zero.mp ht)
      subst this
      simp [splitPara]
    | succ n ih =>
      intro t ht
      cases t with
      | nil => simp [splitPara]
      | cons c rest =>
        by_cases hdn : c = '\n' ∧ ∃ r', rest = '\n' :: r'
        · obtain ⟨rfl, r', rfl⟩ := hdn
          rw [show splitPara ('\n' :: '\n' :: r') = [] :: splitPara r' from rfl]
          simp
        · rw [splitPara_cons_eq c rest hdn]
          cases hs : splitPara rest with
          | nil => simp
          | cons s ss => simp
  exact H t.length t le_rfl

/-- The paragraph lengths (each `+2` for its separator) of a split sum to
the text length plus 2. -/
theorem splitPara_sum (t : Str) :
    ((splitPara t).map (fun p => p.length + 2)).sum = t.length + 2 := by
  have H : ∀ (n : Nat) (t : Str), t.length ≤ n →
      ((splitPara t).map (fun p => p.length + 2)).sum = t.length + 2 := by
    intro n
    induction n with
    | zero =>
      intro t ht
      have : t = [] := List.length_eq_zero.mp (Nat.le_zero.mp ht)
      subst this
      simp [splitPara]
    | succ n ih =>
      intro t ht
      cases t with
      | nil => simp [splitPara]
      | cons c rest =>
        by_cases hdn : c = '\n' ∧ ∃ r', rest = '\n' :: r'
        · obtain ⟨rfl, r', rfl⟩ := hdn
          rw [show splitPara ('\n' :: '\n' :: r') = [] :: splitPara r' from rfl]
          have ihr := ih r' (by simp at ht; omega)
          simp only [List.map_cons, List.sum_cons] at ihr ⊢
          simp only [List.length_nil, List.length_cons]
          omega
        · rw [splitPara_cons_eq c rest hdn]
          have ihr := ih rest (by simp at ht; omega)
          cases hs : splitPara rest with
          | nil => exact absurd hs (splitPara_ne_nil rest)
          | cons s ss =>
            rw [hs] at ihr
            simp only [List.map_cons, List.sum_cons, List.length_cons] at ihr ⊢
            omega
  exact H t.length t le_rfl

theorem splitStep_char (cfg : ChunkCfg) (meta : PyMeta) (st : SplitState)
    (para : Str) :
    (splitStep cfg meta st para).char_index =
      st.char_index + ((para.length : Int) + 2) := by
  rw [splitStep]
  split <;> rfl

/-- `char_index` after the paragraph loop: the start offset plus every
paragraph's length + 2. -/
theorem foldl_splitStep_char (cfg : ChunkCfg) (meta : PyMeta) :
    ∀ (l : List Str) (st : SplitState),
      (l.foldl (splitStep cfg meta) st).char_index =
        st.char_index + ((l.map (fun p => (p.length : Int) + 2)).sum)
  | [], st => by simp
  | p :: l, st => by
    rw [List.foldl_cons, foldl_splitStep_char cfg meta l (splitStep cfg meta st p),
      splitStep_char]
    simp only [List.map_cons, List.sum_cons]
    ring

theorem splitStep_close_proj (cfg : ChunkCfg) (meta : PyMeta) (st : SplitState)
    (para : Str) (hcond : closes cfg st para)
    (hct : joinCurrent st.current ≠ []) :
    (splitStep cfg meta st para).chunks = st.chunks ++ [closeChunk meta st] ∧
    (splitStep cfg meta st para).chunk_index = st.chunk_index + 1 ∧
    (splitStep cfg meta st para).char_index =
      st.char_index + ((para.length : Int) + 2) ∧
    (splitStep cfg meta st para).current ≠ [] := by
  rw [splitStep, if_pos (show st.current_length + ((para.length : Int) + 2) >
    cfg.chunk_size ∧ st.current ≠ [] from hcond)]
  refine ⟨by simp [hct, closeChunk], by simp [hct], rfl, ?_⟩
  simp only []
  split <;> simp

theorem splitStep_open_proj (cfg : ChunkCfg) (meta : PyMeta) (st : SplitState)
    (para : Str) (hcond : ¬ closes cfg st para) :
    (splitStep cfg meta st para).chunks = st.chunks ∧
    (splitStep cfg meta st para).chunk_index = st.chunk_index ∧
    (splitStep cfg meta st para).char_index =
      st.char_index + ((para.length : Int) + 2) ∧
    (splitStep cfg meta st para).current = st.current ++ [para] := by
  rw [splitStep_open cfg meta st para hcond]
  exact ⟨rfl, rfl, rfl, rfl⟩

theorem splitStep_close_nil_proj (cfg : ChunkCfg) (meta : PyMeta)
    (st : SplitState) (para : Str) (hcond : closes cfg st para)
    (hct : joinCurrent st.current = []) :
    (splitStep cfg meta st para).chunks = st.chunks ∧
    (splitStep cfg meta st para).chunk_index = st.chunk_index ∧
    (splitStep cfg meta st para).char_index =
      st.char_index + ((para.length : Int) + 2) ∧
    (splitStep cfg meta st para).current = [para] := by
  rw [splitStep_close_nil cfg meta st para hcond hct]
  exact ⟨rfl, rfl, rfl, rfl⟩

theorem mem_of_mem_getLast? {α : Type*} {l : List α} {a : α}
    (h : l.getLast? = some a) : a ∈ l := by
  obtain ⟨hne, heq⟩ := List.mem_getLast?_eq_getLast (by rw [h]; rfl)
  exact heq ▸ List.getLast_mem hne

theorem range'_snoc (s n : Nat) : List.range' s (n + 1) = List.range' s n ++ [s + n] := by
  rw [Nat.add_comm n 1, ← List.range'_append_1 s n 1, List.range'_one]

theorem c4Inv_step (cfg : ChunkCfg) (meta : PyMeta) (id0 : Nat) (c0 : Int)
    (st : SplitState) (para : Str)
    (h : C4Inv (getFname meta) id0 c0 st) :
    C4Inv (getFname meta) id0 c0 (splitStep cfg meta st para) := by
  have hpl : (0 : Int) ≤ (para.length : Int) + 2 := by positivity
  by_cases hcond : closes cfg st para
  · by_cases hct : joinCurrent st.current = []
    · obtain ⟨hch, hidx, hchar, hcur⟩ :=
        splitStep_close_nil_proj cfg meta st para hcond hct
      refine ⟨hch ▸ h.ends_eq, hch ▸ h.chain, ?_, hch ▸ h.lb, ?_, ?_,
        by rw [hidx, hch]; exact h.idx_eq, by rw [hch]; exact h.ids⟩
      · intro c hc
        rw [hch] at hc
        rw [hchar]
        have := h.ub c hc
        omega
      · right
        rcases h.cur_lb with hcur0 | hge
        · exact absurd hcur0 hcond.2
        · rw [hchar]
          omega
      · rw [hchar]
        have := h.char_lb
        omega
    · obtain ⟨hch, hidx, hchar, hcur⟩ :=
        splitStep_close_proj cfg meta st para hcond hct
      have hcur_ge : c0 + 2 ≤ st.char_index := by
        rcases h.cur_lb with hcur0 | hge
        · exact absurd hcur0 hcond.2
        · exact hge
      constructor
      · intro c hc
        rw [hch] at hc
        rcases List.mem_append.mp hc with hc | hc
        · exact h.ends_eq c hc
        · obtain rfl : c = closeChunk meta st := by simpa using hc
          simp only [closeChunk]
          omega
      · rw [hch]
        refine List.Chain'.append h.chain (List.chain'_singleton _) ?_
        intro x hx y hy
        simp only [List.head?_cons, Option.mem_def, Option.some.injEq] at hy
        subst hy
        have hxm : x ∈ st.chunks := mem_of_mem_getLast? hx
        exact (h.ub x hxm).trans le_rfl
      · intro c hc
        rw [hch] at hc
        rw [hchar]
        rcases List.mem_append.mp hc with hc | hc
        · have := h.ub c hc
          omega
        · obtain rfl : c = closeChunk meta st := by simpa using hc
          simp only [closeChunk]
          omega
      · intro c hc
        rw [hch] at hc
        rcases List.mem_append.mp hc with hc | hc
        · exact h.lb c hc
        · obtain rfl : c = closeChunk meta st := by simpa using hc
          exact hcur_ge
      · right
        rw [hchar]
        omega
      · rw [hchar]
        have := h.char_lb
        omega
      · rw [hidx, hch, h.idx_eq, List.length_append]
        simp only [List.length_cons, List.length_nil]
        omega
      · rw [hch, List.map_append, h.ids, List.length_append]
        show _ = (List.range' id0 (st.chunks.length + 1)).map (mkChunkId (getFname meta))
        rw [range'_snoc, List.map_append]
        congr 1
        show [(closeChunk meta st).chunk_id] = _
        rw [List.map_singleton]
        show [mkChunkId (getFname meta) st.chunk_index] = _
        rw [h.idx_eq]
  · obtain ⟨hch, hidx, hchar, hcur⟩ := splitStep_open_proj cfg meta st para hcond
    refine ⟨hch ▸ h.ends_eq, hch ▸ h.chain, ?_, hch ▸ h.lb, ?_, ?_,
      by rw [hidx, hch]; exact h.idx_eq, by rw [hch]; exact h.ids⟩
    · intro c hc
      rw [hch] at hc
      rw [hchar]
      have := h.ub c hc
      omega
    · rcases h.cur_lb with hcur0 | hge
      · right
        rw [hchar]
        have := h.char_lb
        omega
      · right
        rw [hchar]
        omega
    · rw [hchar]
      have := h.char_lb
      omega

theorem sum_paraLens_int (t : Str) :
    ((splitPara t).map (fun p => (p.length : Int) + 2)).sum = (t.length : Int) + 2 := by
  have H : ∀ l : List Str, (l.map (fun p => (p.length : Int) + 2)).sum =
      (((l.map (fun p => p.length + 2)).sum : Nat) : Int) := by
    intro l
    induction l with
    | nil => simp
    | cons p l ih =>
      simp only [List.map_cons, List.sum_cons, ih]
      push_cast
      ring
  rw [H, splitPara_sum t]
  push_cast
  ring

theorem finalChunk_cases (meta : PyMeta) (st : SplitState) :
    finalChunk meta st = [] ∨
    (st.current ≠ [] ∧ joinCurrent st.current ≠ [] ∧
      finalChunk meta st = [closeChunk meta st]) := by
  rw [finalChunk]
  by_cases h1 : st.current = []
  · left
    rw [if_pos h1]
  · by_cases h2 : joinCurrent st.current = []
    · left
      simp [h1, h2]
    · right
      exact ⟨h1, h2, by simp [h1, h2, closeChunk]⟩

/-- Offset and id bookkeeping of an oversized-section split: per-chunk offset
arithmetic, monotone end offsets within `(c0+2, c0+len+2]`, and chunk ids
numbered consecutively from `id0`. -/
theorem split_with_overlap_inv (cfg : ChunkCfg) (text : Str) (meta : PyMeta)
    (id0 : Nat) (c0 : Int) :
    (∀ c ∈ split_with_overlap cfg text meta id0 c0,
        c.end_index = c.start_index + c.text.length) ∧
    List.Chain' (fun a b : TextChunk => a.end_index ≤ b.end_index)
      (split_with_overlap cfg text meta id0 c0) ∧
    (∀ c ∈ split_with_overlap cfg text meta id0 c0, c0 + 2 ≤ c.end_index) ∧
    (∀ c ∈ split_with_overlap cfg text meta id0 c0,
        c.end_index ≤ c0 + (text.length : Int) + 2) ∧
    (split_with_overlap cfg text meta id0 c0).map (fun c => c.chunk_id) =
      (List.range' id0 (split_with_overlap cfg text meta id0 c0).length).map
        (mkChunkId (getFname meta)) := by
  have hinv : C4Inv (getFname meta) id0 c0
      ((splitPara text).foldl (splitStep cfg meta) ⟨[], [], 0, id0, c0⟩) := by
    apply foldl_preserve (splitStep cfg meta) (C4Inv (getFname meta) id0 c0)
      (fun s a hs => c4Inv_step cfg meta id0 c0 s a hs)
    exact ⟨by simp, List.chain'_nil, by simp, by simp, Or.inl rfl, le_rfl, rfl, rfl⟩
  set st := (splitPara text).foldl (splitStep cfg meta) ⟨[], [], 0, id0, c0⟩ with hst
  have hchar : st.char_index = c0 + ((text.length : Int) + 2) := by
    rw [hst, foldl_splitStep_char]
    show c0 + _ = _
    rw [sum_paraLens_int]
  rw [split_with_overlap, ← hst]
  rcases finalChunk_cases meta st with hfin | ⟨hcur, hct, hfin⟩
  · rw [hfin, List.append_nil]
    refine ⟨hinv.ends_eq, hinv.chain, hinv.lb, ?_, ?_⟩
    · intro c hc
      have := hinv.ub c hc
      omega
    · rw [hinv.ids]
  · rw [hfin]
    have hcfin_lb : c0 + 2 ≤ st.char_index := by
      rcases hinv.cur_lb with h0 | hge
      · exact absurd h0 hcur
      · exact hge
    refine ⟨?_, ?_, ?_, ?_, ?_⟩
    · intro c hc
      rcases List.mem_append.mp hc with hc | hc
      · exact hinv.ends_eq c hc
      · obtain rfl : c = closeChunk meta st := by simpa using hc
        simp only [closeChunk]
        omega
    · refine List.Chain'.append hinv.chain (List.chain'_singleton _) ?_
      intro x hx y hy
      simp only [List.head?_cons, Option.mem_def, Option.some.injEq] at hy
      subst hy
      exact hinv.ub x (mem_of_mem_getLast? hx)
    · intro c hc
      rcases List.mem_append.mp hc with hc | hc
      · exact hinv.lb c hc
      · obtain rfl : c = closeChunk meta st := by simpa using hc
        exact hcfin_lb
    · intro c hc
      rcases List.mem_append.mp hc with hc | hc
      · have := hinv.ub c hc
        omega
      · obtain rfl : c = closeChunk meta st := by simpa using hc
        simp only [closeChunk]
        omega
    · rw [List.map_append, hinv.ids, List.length_append]
      show _ = (List.range' id0 (st.chunks.length + 1)).map (mkChunkId (getFname meta))
      rw [range'_snoc, List.map_append]
      congr 1
      show [(closeChunk meta st).chunk_id] = _
      rw [List.map_singleton]
      show [mkChunkId (getFname meta) st.chunk_index] = _
      rw [hinv.idx_eq]

theorem natDigitsAux_ofDigits :
    ∀ (fuel n : Nat), n ≤ fuel → Nat.ofDigits 10 (natDigitsAux fuel n) = n
  | fuel, 0, _ => by cases fuel <;> simp [natDigitsAux]
  | 0, n + 1, h => by omega
  | fuel + 1, n + 1, h => by
    rw [natDigitsAux, Nat.ofDigits_cons,
      natDigitsAux_ofDigits fuel ((n + 1) / 10) (by omega)]
    omega

theorem natDigitsAux_lt :
    ∀ (fuel n : Nat), ∀ d ∈ natDigitsAux fuel n, d < 10
  | fuel, 0 => by cases fuel <;> simp [natDigitsAux]
  | 0, _ + 1 => by simp [natDigitsAux]
  | fuel + 1, n + 1 => by
    rw [natDigitsAux]
    intro d hd
    rcases List.mem_cons.mp hd with rfl | hd
    · omega
    · exact natDigitsAux_lt fuel ((n + 1) / 10) d hd

theorem digitChar_inj : ∀ a < 10, ∀ b < 10, digitChar a = digitChar b → a = b := by
  decide

theorem map_digitChar_inj :
    ∀ (l1 l2 : List Nat), (∀ d ∈ l1, d < 10) → (∀ d ∈ l2, d < 10) →
      l1.map digitChar = l2.map digitChar → l1 = l2
  | [], [], _, _, _ => rfl
  | [], _ :: _, _, _, h => by simp at h
  | _ :: _, [], _, _, h => by simp at h
  | a :: l1, b :: l2, h1, h2, h => by
    simp only [List.map_cons, List.cons.injEq] at h
    have hab := digitChar_inj a (h1 a (by simp)) b (h2 b (by simp)) h.1
    rw [hab, map_digitChar_inj l1 l2 (fun d hd => h1 d (by simp [hd]))
      (fun d hd => h2 d (by simp [hd])) h.2]

theorem natDigits_inj {n m : Nat} (h : natDigits n = natDigits m) : n = m := by
  have hn := natDigitsAux_ofDigits n n le_rfl
  have hm := natDigitsAux_ofDigits m m le_rfl
  rw [natDigits, natDigits] at h
  rw [← hn, ← hm, h]

theorem natDigits_eq_zero_iff {m : Nat} (h : natDigits m = [0]) : m = 0 := by
  have hm := natDigitsAux_ofDigits m m le_rfl
  rw [show natDigitsAux m m = natDigits m from rfl, h, Nat.ofDigits_cons,
    Nat.ofDigits_nil] at hm
  omega

theorem natToStr_inj : Function.Injective natToStr := by
  intro n m h
  rw [natToStr, natToStr] at h
  by_cases hn : n = 0 <;> by_cases hm : m = 0
  · rw [hn, hm]
  · rw [if_pos hn, if_neg hm] at h
    have hrev := congrArg List.reverse h
    simp only [List.reverse_reverse] at hrev
    have h0 : [0] = natDigits m := by
      apply map_digitChar_inj [0] (natDigits m) (by simp) (natDigitsAux_lt m m)
      rw [← hrev]
      rfl
    exact absurd (natDigits_eq_zero_iff h0.symm) hm
  · rw [if_neg hn, if_pos hm] at h
    have hrev := congrArg List.reverse h
    simp only [List.reverse_reverse] at hrev
    have h0 : natDigits n = [0] := by
      apply map_digitChar_inj (natDigits n) [0] (natDigitsAux_lt n n) (by simp)
      rw [hrev]
      rfl
    exact absurd (natDigits_eq_zero_iff h0) hn
  · rw [if_neg hn, if_neg hm] at h
    have hrev := congrArg List.reverse h
    simp only [List.reverse_reverse] at hrev
    exact natDigits_inj (map_digitChar_inj _ _ (natDigitsAux_lt n n)
      (natDigitsAux_lt m m) hrev)

theorem mkChunkId_inj (fname : Str) : Function.Injective (mkChunkId fname) := by
  intro i j h
  rw [mkChunkId, mkChunkId] at h
  have h1 := List.append_inj_right h rfl
  exact natToStr_inj h1

theorem pyStrip_length_le (s : Str) : (pyStrip s).length ≤ s.length := by
  have h1 : (lstrip s).length ≤ s.length :=
    (List.dropWhile_sublist isPyWs).length_le
  have h2 : (rstrip (lstrip s)).length ≤ (lstrip s).length := by
    rw [rstrip, List.length_reverse]
    calc ((lstrip s).reverse.dropWhile isPyWs).length
        ≤ (lstrip s).reverse.length := (List.dropWhile_sublist isPyWs).length_le
      _ = (lstrip s).length := List.length_reverse _
  exact h2.trans h1

theorem sum_len1_int (l : List Str) :
    (l.map (fun x => (x.length : Int) + 1)).sum =
      (((l.map (fun x => x.length + 1)).sum : Nat) : Int) := by
  induction l with
  | nil => simp
  | cons x l ih =>
    simp only [List.map_cons, List.sum_cons, ih]
    push_cast
    ring

theorem pyJoin_newline_length :
    ∀ l : List Str, l ≠ [] →
      (pyJoin ['\n'] l).length + 1 = (l.map (fun x => x.length + 1)).sum
  | [], h => absurd rfl h
  | [x], _ => by simp [pyJoin]
  | x :: y :: r, _ => by
    have ih := pyJoin_newline_length (y :: r) (by simp)
    rw [pyJoin_cons_of_ne_nil _ _ (by simp : (y :: r : List Str) ≠ [])]
    simp only [List.length_append, List.map_cons, List.sum_cons,
      List.length_cons, List.length_nil] at ih ⊢
    omega

/-- Saving the in-progress section preserves the section invariants and
bounds every saved section's span by the running position. -/
theorem saveSec_inv (st : HdrState) (h : HInv st) :
    (∀ s ∈ saveSec st, s.end_index = s.start_index + s.text.length) ∧
    (∀ s ∈ saveSec st, s.text ≠ []) ∧
    List.Chain' (fun a b : Sect =>
      a.start_index + a.text.length + 1 ≤ b.start_index) (saveSec st) ∧
    (∀ s ∈ saveSec st, s.start_index + s.text.length + 1 ≤ st.pos) := by
  rw [saveSec]
  by_cases hc : st.cur = []
  · rw [if_pos hc]
    exact ⟨h.ends, h.nonempty, h.chain,
      fun s hs => (h.bound s hs).trans h.start_le⟩
  · rw [if_neg hc]
    by_cases ht : pyStrip (pyJoin ['\n'] st.cur) = []
    · rw [if_pos ht]
      exact ⟨h.ends, h.nonempty, h.chain,
        fun s hs => (h.bound s hs).trans h.start_le⟩
    · rw [if_neg ht]
      have hlen : (pyStrip (pyJoin ['\n'] st.cur)).length + 1 ≤
          (st.cur.map (fun x => x.length + 1)).sum := by
        have h1 := pyStrip_length_le (pyJoin ['\n'] st.cur)
        have h2 := pyJoin_newline_length st.cur hc
        omega
      have hspan : st.start + ((pyStrip (pyJoin ['\n'] st.cur)).length : Int) + 1 ≤
          st.pos := by
        rw [h.pos_eq, sum_len1_int]
        have := hlen
        omega
      refine ⟨?_, ?_, ?_, ?_⟩
      · intro s hs
        rcases List.mem_append.mp hs with hs | hs
        · exact h.ends s hs
        · obtain rfl : s = _ := by simpa using hs
          rfl
      · intro s hs
        rcases List.mem_append.mp hs with hs | hs
        · exact h.nonempty s hs
        · obtain rfl : s = _ := by simpa using hs
          exact ht
      · refine List.Chain'.append h.chain (List.chain'_singleton _) ?_
        intro x hx y hy
        simp only [List.head?_cons, Option.mem_def, Option.some.injEq] at hy
        subst hy
        exact h.bound x (mem_of_mem_getLast? hx)
      · intro s hs
        rcases List.mem_append.mp hs with hs | hs
        · exact (h.bound s hs).trans h.start_le
        · obtain rfl : s = _ := by simpa using hs
          exact hspan

theorem hInv_step (st : HdrState) (line : Str) (h : HInv st) :
    HInv (hdrStep st line) := by
  rw [hdrStep]
  have hl1 : (0 : Int) ≤ (line.length : Int) + 1 := by positivity
  cases hm : headerMatch line with
  | some g2 =>
    obtain ⟨he, hn, hch, hb⟩ := saveSec_inv st h
    refine ⟨he, hn, hch, hb, ?_, ?_⟩
    · show st.pos ≤ st.pos + (line.length : Int) + 1
      omega
    · show st.pos + (line.length : Int) + 1 =
        st.pos + (([line] : List Str).map (fun l => (l.length : Int) + 1)).sum
      simp
      ring
  | none =>
    refine ⟨h.ends, h.nonempty, h.chain, ?_, ?_, ?_⟩
    · intro s hs
      exact h.bound s hs
    · show st.start ≤ st.pos + (line.length : Int) + 1
      have := h.start_le
      omega
    · show st.pos + (line.length : Int) + 1 =
        st.start + ((st.cur ++ [line]).map (fun l => (l.length : Int) + 1)).sum
      rw [List.map_append, List.sum_append, h.pos_eq]
      simp
      ring

/-- Sections produced by `_split_by_headers`: consistent offsets, a gap of at
least one character between consecutive sections, and (except for the
single-section fallback) non-empty text. -/
theorem split_by_headers_inv (content : Str) :
    (∀ s ∈ split_by_headers content,
        s.end_index = s.start_index + s.text.length) ∧
    List.Chain' (fun a b : Sect =>
      a.start_index + a.text.length + 1 ≤ b.start_index)
      (split_by_headers content) ∧
    ((split_by_headers content).length ≤ 1 ∨
      ∀ s ∈ split_by_headers content, s.text ≠ []) := by
  rw [split_by_headers]
  have hinv : HInv ((splitLines content).foldl hdrStep ⟨[], [], none, 0, 0⟩) := by
    apply foldl_preserve hdrStep HInv (fun s a hs => hInv_step s a hs)
    exact ⟨by simp, by simp, List.chain'_nil, by simp, le_rfl, by simp⟩
  obtain ⟨he, hn, hch, -⟩ :=
    saveSec_inv ((splitLines content).foldl hdrStep ⟨[], [], none, 0, 0⟩) hinv
  by_cases hnil : saveSec ((splitLines content).foldl hdrStep ⟨[], [], none, 0, 0⟩) = []
  · rw [if_pos hnil]
    refine ⟨?_, ?_, Or.inl (by simp)⟩
    · intro s hs
      obtain rfl : s = _ := by simpa using hs
      simp
    · exact List.chain'_singleton _
  · rw [if_neg hnil]
    exact ⟨he, hch, Or.inr hn⟩

theorem getFname_withHeader (m : PyMeta) (h : Option Str) :
    getFname (withHeader m h) = getFname m := by
  cases h <;> rfl

/-- The section gap of the header split, restated for the head of a list. -/
theorem chain_sect_head {s s' : Sect} {rest' : List Sect}
    (hchain : List.Chain' (fun a b : Sect =>
      a.start_index + a.text.length + 1 ≤ b.start_index) (s :: s' :: rest')) :
    s.start_index + s.text.length + 1 ≤ s'.start_index :=
  List.chain'_cons.mp hchain |>.1

/-- The per-section loop of `chunk_markdown`: every chunk spans forward,
end offsets are monotone across the document, every chunk ends strictly
after the first section's start, and chunk ids are numbered consecutively
from `idx`. -/
theorem chunkSections_inv (cfg : ChunkCfg) (meta : PyMeta) :
    ∀ (secs : List Sect) (idx : Nat),
      (∀ s ∈ secs, s.end_index = s.start_index + s.text.length) →
      List.Chain' (fun a b : Sect =>
        a.start_index + a.text.length + 1 ≤ b.start_index) secs →
      (∀ c ∈ chunkSections cfg meta secs idx, c.start_index ≤ c.end_index) ∧
      ((∀ s ∈ secs.tail, 1 ≤ s.text.length) →
        List.Chain' (fun a b : TextChunk => a.end_index ≤ b.end_index)
          (chunkSections cfg meta secs idx)) ∧
      ((∀ s ∈ secs, 1 ≤ s.text.length) →
        ∀ fs, secs.head? = some fs →
          ∀ c ∈ chunkSections cfg meta secs idx,
            fs.start_index + 1 ≤ c.end_index) ∧
      (chunkSections cfg meta secs idx).map (fun c => c.chunk_id) =
        (List.range' idx (chunkSections cfg meta secs idx).length).map
          (mkChunkId (getFname meta))
  | [], idx, _, _ => by
    refine ⟨by simp [chunkSections], fun _ => by simp [chunkSections], ?_,
      by simp [chunkSections]⟩
    intro _ fs hfs
    simp at hfs
  | s :: rest, idx, hends, hchain => by
    have hs_end : s.end_index = s.start_index + s.text.length :=
      hends s (by simp)
    have hrest_ends : ∀ x ∈ rest, x.end_index = x.start_index + x.text.length :=
      fun x hx => hends x (by simp [hx])
    have hrest_chain := hchain.tail
    by_cases hfit : (s.text.length : Int) ≤ cfg.chunk_size
    · rw [chunkSections, if_pos hfit]
      obtain ⟨ih1, ih2, ih3, ih4⟩ :=
        chunkSections_inv cfg meta rest (idx + 1) hrest_ends hrest_chain
      refine ⟨?_, ?_, ?_, ?_⟩
      · intro c hc
        rcases List.mem_cons.mp hc with rfl | hc
        · show s.start_index ≤ s.end_index
          rw [hs_end]
          have : (0 : Int) ≤ (s.text.length : Int) := by positivity
          omega
        · exact ih1 c hc
      · intro htail
        rw [List.chain'_cons']
        refine ⟨?_, ih2 (fun x hx => htail x (List.mem_of_mem_tail hx))⟩
        intro b hb
        cases rest with
        | nil => simp [chunkSections] at hb
        | cons s' rest' =>
          have hb_mem : b ∈ chunkSections cfg meta (s' :: rest') (idx + 1) := by
            cases hh : chunkSections cfg meta (s' :: rest') (idx + 1) with
            | nil => rw [hh] at hb; simp at hb
            | cons x xs =>
              rw [hh] at hb
              simp only [List.head?_cons, Option.mem_def, Option.some.injEq] at hb
              subst hb
              simp
          have hblow := ih3 (fun x hx => htail x hx) s' rfl b hb_mem
          have hgap := chain_sect_head hchain
          show s.end_index ≤ b.end_index
          rw [hs_end]
          omega
      · intro hall fs hfs c hc
        have hsf : s = fs := by simpa using hfs
        rw [← hsf]
        rcases List.mem_cons.mp hc with rfl | hc
        · show s.start_index + 1 ≤ s.end_index
          rw [hs_end]
          have := hall s (by simp)
          omega
        · cases rest with
          | nil => simp [chunkSections] at hc
          | cons s' rest' =>
            have hclow := ih3 (fun x hx => hall x (by simp [hx])) s' rfl c hc
            have hgap := chain_sect_head hchain
            have hlen : (0 : Int) ≤ (s.text.length : Int) := by positivity
            omega
      · simp only [List.map_cons, List.length_cons, ih4]
        rw [List.range'_succ]
        simp only [List.map_cons]
        rfl
    · rw [chunkSections, if_neg hfit]
      obtain ⟨sp1, sp2, sp3, sp4, sp5⟩ := split_with_overlap_inv cfg s.text
        (withHeader meta s.headerMeta) idx s.start_index
      obtain ⟨ih1, ih2, ih3, ih4⟩ := chunkSections_inv cfg meta rest
        (idx + (split_with_overlap cfg s.text (withHeader meta s.headerMeta)
          idx s.start_index).length) hrest_ends hrest_chain
      refine ⟨?_, ?_, ?_, ?_⟩
      · intro c hc
        rcases List.mem_append.mp hc with hc | hc
        · have := sp1 c hc
          have hl : (0 : Int) ≤ (c.text.length : Int) := by positivity
          omega
        · exact ih1 c hc
      · intro htail
        refine List.Chain'.append (sp2)
          (ih2 (fun x hx => htail x (List.mem_of_mem_tail hx))) ?_
        intro a ha b hb
        cases rest with
        | nil => simp [chunkSections] at hb
        | cons s' rest' =>
          have hb_mem : b ∈ chunkSections cfg meta (s' :: rest')
              (idx + (split_with_overlap cfg s.text (withHeader meta s.headerMeta)
                idx s.start_index).length) := by
            cases hh : chunkSections cfg meta (s' :: rest')
                (idx + (split_with_overlap cfg s.text (withHeader meta s.headerMeta)
                  idx s.start_index).length) with
            | nil => rw [hh] at hb; simp at hb
            | cons x xs =>
              rw [hh] at hb
              simp only [List.head?_cons, Option.mem_def, Option.some.injEq] at hb
              subst hb
              simp
          have hblow := ih3 (fun x hx => htail x hx) s' rfl b hb_mem
          have hgap := chain_sect_head hchain
          have haub := sp4 a (mem_of_mem_getLast? ha)
          omega
      · intro hall fs hfs c hc
        have hsf : s = fs := by simpa using hfs
        rw [← hsf]
        rcases List.mem_append.mp hc with hc | hc
        · have := sp3 c hc
          omega
        · cases rest with
          | nil => simp [chunkSections] at hc
          | cons s' rest' =>
            have hclow := ih3 (fun x hx => hall x (by simp [hx])) s' rfl c hc
            have hgap := chain_sect_head hchain
            have hlen : (0 : Int) ≤ (s.text.length : Int) := by positivity
            omega
      · rw [List.map_append, sp5, getFname_withHeader, ih4, List.length_append,
          ← List.map_append, List.range'_append_1, Nat.add_comm]

theorem merge_small_chunks_start_le_end (cfg : ChunkCfg) :
    ∀ l : List TextChunk, (∀ c ∈ l, c.start_index ≤ c.end_index) →
      List.Chain' (fun a b : TextChunk => a.end_index ≤ b.end_index) l →
      ∀ c ∈ merge_small_chunks cfg l, c.start_index ≤ c.end_index
  | [], _, _ => by simp [merge_small_chunks]
  | [c], h, _ => by simpa [merge_small_chunks] using h c (by simp)
  | c :: c2 :: rest, hse, hch => by
    by_cases hlt : c.text.length < cfg.min_chunk_size
    · rw [merge_small_chunks_cons_of_lt cfg c c2 rest hlt]
      intro x hx
      rcases List.mem_cons.mp hx with rfl | hx
      · have h1 := hse c (by simp)
        have h2 : c.end_index ≤ c2.end_index := (List.chain'_cons.mp hch).1
        show (mergedChunk c c2).start_index ≤ (mergedChunk c c2).end_index
        simp only [mergedChunk]
        omega
      · exact merge_small_chunks_start_le_end cfg rest
          (fun y hy => hse y (by simp [hy])) (List.chain'_cons.mp hch).2.tail x hx
    · rw [merge_small_chunks_cons_of_le cfg c c2 rest hlt]
      intro x hx
      rcases List.mem_cons.mp hx with rfl | hx
      · exact hse x (by simp)
      · exact merge_small_chunks_start_le_end cfg (c2 :: rest)
          (fun y hy => hse y (by simp [hy])) (List.chain'_cons.mp hch).2 x hx
termination_by l => l.length

theorem merge_small_chunks_ids_sublist (cfg : ChunkCfg) :
    ∀ l : List TextChunk,
      ((merge_small_chunks cfg l).map (fun c => c.chunk_id)).Sublist
        (l.map (fun c => c.chunk_id))
  | [] => by simp [merge_small_chunks]
  | [c] => by simp [merge_small_chunks]
  | c :: c2 :: rest => by
    by_cases hlt : c.text.length < cfg.min_chunk_size
    · rw [merge_small_chunks_cons_of_lt cfg c c2 rest hlt]
      simp only [List.map_cons]
      exact List.Sublist.cons₂ _ ((merge_small_chunks_ids_sublist cfg rest).cons _)
    · rw [merge_small_chunks_cons_of_le cfg c c2 rest hlt]
      simp only [List.map_cons]
      exact List.Sublist.cons₂ _ (merge_small_chunks_ids_sublist cfg (c2 :: rest))
termination_by l => l.length

/-- C4: every chunk produced by `chunk_markdown` satisfies
`start_index ≤ end_index`, and the chunk ids (of the form
`"{filename}_chunk_{i}"`) are pairwise distinct within the document. -/
theorem chunk_markdown_offsets_ids (cfg : ChunkCfg) (content : Str)
    (meta : PyMeta) :
    (∀ c ∈ chunk_markdown cfg content meta, c.start_index ≤ c.end_index) ∧
    ((chunk_markdown cfg content meta).map (fun c => c.chunk_id)).Nodup := by
  obtain ⟨he, hchain, hne⟩ := split_by_headers_inv content
  obtain ⟨p1, p2, p3, p4⟩ :=
    chunkSections_inv cfg meta (split_by_headers content) 0 he hchain
  have hch_pre : List.Chain' (fun a b : TextChunk => a.end_index ≤ b.end_index)
      (chunksBeforeMerge cfg content meta) := by
    rcases hne with hle | hall
    · refine p2 ?_
      intro s hs
      have h1 := List.length_pos_of_mem hs
      have h2 : (split_by_headers content).tail.length =
          (split_by_headers content).length - 1 := List.length_tail _
      omega
    · exact p2 (fun s hs =>
        List.length_pos.mpr (hall s (List.mem_of_mem_tail hs)))
  constructor
  · exact merge_small_chunks_start_le_end cfg _ p1 hch_pre
  · have hnodup_pre :
        ((chunksBeforeMerge cfg content meta).map (fun c => c.chunk_id)).Nodup := by
      rw [show chunksBeforeMerge cfg content meta =
        chunkSections cfg meta (split_by_headers content) 0 from rfl, p4]
      exact (List.nodup_range' 0 _).map (mkChunkId_inj (getFname meta))
    exact hnodup_pre.sublist (merge_small_chunks_ids_sublist cfg _)

/-- Witness for C6: a failing embedder, a failing store query, and an empty
collection each yield the empty result list on concrete inputs. -/
theorem retrieve_error_handling_witness :
    retrieve ⟨fun _ => .error (), fun _ _ _ => .ok ⟨[], [], [], []⟩, 3⟩
        (str "q") none none = [] ∧
    retrieve ⟨fun _ => .ok [], fun _ _ _ => .error (), 3⟩ (str "q") none none = [] ∧
    retrieve (ctxOfStore (fun _ => .ok []) (fun _ _ => 0) [] 3)
        (str "q") (some 5) none = [] :=
  ⟨retrieve_error_handling.1 _ (str "q") none none rfl,
   retrieve_error_handling.2.1 _ (str "q") none none [] rfl rfl,
   retrieve_error_handling.2.2 (fun _ => .ok []) (fun _ _ => 0) 3 (str "q")
     (some 5) none⟩

end HrAgent
